import Mathlib

/-!
Verification of the ordered-set container in `gosc/set/set.go`.

The Go code is generic over an element type via reflection; we embed it
shallowly over a type `α` with a caller-supplied ordering `less` and an
equality predicate `equal`, both `α → α → Bool` as in the source.  The
container's storage (`p.rv`, a reflected slice) is a `List α`; positions
are `Nat` (every position reaching an indexing primitive in the claims is
non-negative, and the one place where Go computes a negative length,
`sort.Search(p.rv.Len()-pos, ...)` with `pos > p.rv.Len()`, returns 0 in
Go exactly as it does under `Nat` truncation).  Go's `sort.Search` is
modelled by the exact binary search loop of the Go standard library,
written with a structural fuel argument so that the kernel can evaluate
it; the fuel bound `j - i ≤ fuel` holds at every call site, making the
fuel-exhaustion branch unreachable.  `sort.Slice`/`sort.SliceStable` sort
ascending by `less` with unspecified (respectively stable) order of
order-tied elements; we model both by a structurally recursive insertion
sort producing an ascending permutation.  A Go `panic` (out-of-range
reflect `Index`) is modelled by `Option`, `none` meaning the call traps.
-/

namespace Gosc

/-- Model of Go `sort.Search`'s loop: `i, j := 0, n; for i < j { h := (i+j)/2;
if !f(h) { i = h + 1 } else { j = h } }; return i`.  The loop runs at most
`j - i` times, so with `j - i ≤ fuel` the fuel never runs out. -/
def sortSearchLoop (f : Nat → Bool) : Nat → Nat → Nat → Nat
  | 0, i, _ => i
  | fuel + 1, i, j =>
    if i < j then
      if !f ((i + j) / 2) then sortSearchLoop f fuel ((i + j) / 2 + 1) j
      else sortSearchLoop f fuel i ((i + j) / 2)
    else i

/-- Model of Go `sort.Search n f`.  For `n ≤ 0` the Go loop body never runs
and the function returns 0, which matches `Nat` truncation at call sites. -/
def sortSearch (n : Nat) (f : Nat → Bool) : Nat :=
  sortSearchLoop f n 0 n

theorem sortSearchLoop_ge (f : Nat → Bool) :
    ∀ (fuel i j : Nat), i ≤ sortSearchLoop f fuel i j := by
  intro fuel
  induction fuel with
  | zero => intro i j; exact Nat.le_refl i
  | succ fuel ih =>
    intro i j
    show i ≤ (if i < j then _ else i)
    by_cases hij : i < j
    · rw [if_pos hij]
      by_cases hf : (!f ((i + j) / 2)) = true
      · rw [if_pos hf]
        have := ih ((i + j) / 2 + 1) j
        omega
      · rw [if_neg hf]
        exact ih i ((i + j) / 2)
    · rw [if_neg hij]

theorem sortSearchLoop_le (f : Nat → Bool) :
    ∀ (fuel i j : Nat), i ≤ j → sortSearchLoop f fuel i j ≤ j := by
  intro fuel
  induction fuel with
  | zero => intro i j h; exact h
  | succ fuel ih =>
    intro i j h
    show (if i < j then _ else i) ≤ j
    by_cases hij : i < j
    · rw [if_pos hij]
      by_cases hf : (!f ((i + j) / 2)) = true
      · rw [if_pos hf]
        exact ih ((i + j) / 2 + 1) j (by omega)
      · rw [if_neg hf]
        have := ih i ((i + j) / 2) (by omega)
        omega
    · rw [if_neg hij]
      exact h

/-- Loop invariant on the right end: if the current right end `j` satisfies
`f j = true ∨ j = N` then a result below `N` points at a true value of `f`.
No monotonicity of `f` is needed.  `j - i ≤ fuel` keeps the fuel branch
unreachable. -/
theorem sortSearchLoop_f_true (f : Nat → Bool) (N : Nat) :
    ∀ (fuel i j : Nat), j - i ≤ fuel → i ≤ j → (f j = true ∨ j = N) →
      sortSearchLoop f fuel i j < N → f (sortSearchLoop f fuel i j) = true := by
  intro fuel
  induction fuel with
  | zero =>
    intro i j hfuel hij hj hres
    have : i = j := by omega
    subst this
    simp only [sortSearchLoop] at hres ⊢
    rcases hj with h | h
    · exact h
    · omega
  | succ fuel ih =>
    intro i j hfuel hij hj hres
    simp only [sortSearchLoop] at hres ⊢
    by_cases hij' : i < j
    · rw [if_pos hij'] at hres ⊢
      by_cases hf : (!f ((i + j) / 2)) = true
      · rw [if_pos hf] at hres ⊢
        exact ih ((i + j) / 2 + 1) j (by omega) (by omega) hj hres
      · rw [if_neg hf] at hres ⊢
        refine ih i ((i + j) / 2) (by omega) (by omega) (Or.inl ?_) hres
        revert hf; cases f ((i + j) / 2) <;> simp
    · rw [if_neg hij'] at hres ⊢
      have : i = j := by omega
      subst this
      rcases hj with h | h
      · exact h
      · omega

/-- If the result is below the right end then `f` holds there. -/
theorem sortSearch_f_true (n : Nat) (f : Nat → Bool)
    (h : sortSearch n f < n) : f (sortSearch n f) = true :=
  sortSearchLoop_f_true f n n 0 n (by omega) (Nat.zero_le n) (Or.inr rfl) h

/-- Loop invariant on the left end plus monotonicity of `f` below `N`:
every index below the result has `f` false. -/
theorem sortSearchLoop_f_false (f : Nat → Bool) (N : Nat)
    (mono : ∀ a b : Nat, a ≤ b → b < N → f a = true → f b = true) :
    ∀ (fuel i j : Nat), j ≤ N →
      (∀ k : Nat, k < i → f k = false) →
      ∀ k : Nat, k < sortSearchLoop f fuel i j → f k = false := by
  intro fuel
  induction fuel with
  | zero =>
    intro i j _ hi k hk
    exact hi k hk
  | succ fuel ih =>
    intro i j hjN hi k hk
    simp only [sortSearchLoop] at hk
    by_cases hij : i < j
    · rw [if_pos hij] at hk
      by_cases hf : (!f ((i + j) / 2)) = true
      · rw [if_pos hf] at hk
        have hfh : f ((i + j) / 2) = false := by
          revert hf; cases f ((i + j) / 2) <;> simp
        refine ih ((i + j) / 2 + 1) j hjN ?_ k hk
        intro m hm
        by_cases hmi : m < i
        · exact hi m hmi
        · cases hfm : f m
          · rfl
          · exact absurd (mono m ((i + j) / 2) (by omega) (by omega) hfm)
              (by simp [hfh])
      · rw [if_neg hf] at hk
        exact ih i ((i + j) / 2) (by omega) hi k hk
    · rw [if_neg hij] at hk
      exact hi k hk

theorem sortSearch_le (n : Nat) (f : Nat → Bool) : sortSearch n f ≤ n :=
  sortSearchLoop_le f n 0 n (Nat.zero_le n)

theorem sortSearch_f_false (n : Nat) (f : Nat → Bool)
    (mono : ∀ a b : Nat, a ≤ b → b < n → f a = true → f b = true) :
    ∀ k : Nat, k < sortSearch n f → f k = false :=
  sortSearchLoop_f_false f n mono n 0 n (Nat.le_refl n) (by omega)

section Container

variable {α : Type} (less equal : α → α → Bool)

/-- Model of the `set.Search` method:
`sort.Search(p.rv.Len()-pos, func(i int) bool
  { return !p.less(p.rv.Index(pos+i).Interface(), v) })`.
The binary search only evaluates its predicate at offsets `i` with
`pos + i < items.length`, so the `getD` default (we pass `v`) is never
read. -/
def search (items : List α) (v : α) (pos : Nat) : Nat :=
  sortSearch (items.length - pos) (fun i => !less (items.getD (pos + i) v) v)

/-- Model of `set.hasOne`.  `none` models the Go panic when
`p.rv.Index(pos+n)` is evaluated out of range (reachable when
`pos > p.rv.Len()`): the Go code only short-circuits on
`pos+n == p.rv.Len()` before indexing. -/
def hasOne (items : List α) (v : α) (pos : Nat) : Option Bool :=
  if pos + search less items v pos = items.length then some false
  else
    match items[pos + search less items v pos]? with
    | none => none
    | some e => some (equal e v)

/-- Model of Go `sort.SliceIsSorted(slice, lf)` with the comparison closure
built by `lessFunc`: true iff no index `i ≥ 1` has `less(s[i], s[i-1])`. -/
def goIsSorted : List α → Bool
  | [] => true
  | [_] => true
  | a :: b :: t => !less b a && goIsSorted (b :: t)

/-- Insertion of `v` into a list, before the first element `a` with
`le v a`.  Building block of the insertion sort below. -/
def insSorted (le : α → α → Bool) (v : α) : List α → List α
  | [] => [v]
  | a :: t => if le v a then v :: a :: t else a :: insSorted le v t

/-- Structurally recursive insertion sort by a non-strict comparison `le`,
used to model Go's `sort.Slice`/`sort.SliceStable`: both produce an
ascending permutation and differ only in the order of order-tied elements,
which `sort.Slice` leaves unspecified. -/
def sortBy (le : α → α → Bool) : List α → List α
  | [] => []
  | v :: t => insSorted le v (sortBy le t)

/-- Model of the `set.sort` method, which sorts the caller's slice in place
when it is not already sorted ascending under `less`.  The result is the
content of the caller's slice after the call. -/
def setSort (s : List α) : List α :=
  if goIsSorted less s then s else sortBy (fun a b => !less b a) s

/-- Model of `set.InsertOne`.  `ReflectInsertAt(slice, v, pos)` appends and
shifts, i.e. it is `List.insertIdx pos v` (its argument `pos` never exceeds
the length at any call site). -/
def insertOne (items : List α) (v : α) : List α × Nat :=
  if items.length = 0 then (items ++ [v], 1)
  else
    if h : search less items v 0 < items.length then
      if equal items[search less items v 0] v then (items, 0)
      else if less items[search less items v 0] v then
        (items.insertIdx (search less items v 0 + 1) v, 1)
      else (items.insertIdx (search less items v 0) v, 1)
    else (items.insertIdx (search less items v 0) v, 1)

/-- The merge loop of `set.InsertSlice` (`for i := 0; i < rv.Len(); i++`),
with the mutable state `(p.rv, pos, added)` threaded explicitly.  In the
branch where the search stops at `pos1 < len` and the element is absent,
Go inserts at `pos1` or `pos1+1` and then decrements `pos` when positive,
leaving `pos1 - 1`; in the branch where the search exhausts the container
(`pos1 = len ≥ 1`), Go decrements `pos` once before the insertion and once
after when still positive, leaving `pos1 - 2` (`Nat` subtraction matches
the Go guards `if pos > 0`). -/
def insertSliceLoop : List α → List α → Nat → Nat → List α × Nat
  | [], items, _, added => (items, added)
  | v :: rest, items, pos, added =>
    if items.length = 0 then
      insertSliceLoop rest (items ++ [v]) pos (added + 1)
    else
      if h : pos + search less items v pos < items.length then
        if equal items[pos + search less items v pos] v then
          insertSliceLoop rest items (pos + search less items v pos) added
        else if less items[pos + search less items v pos] v then
          insertSliceLoop rest
            (items.insertIdx (pos + search less items v pos + 1) v)
            (pos + search less items v pos - 1) (added + 1)
        else
          insertSliceLoop rest
            (items.insertIdx (pos + search less items v pos) v)
            (pos + search less items v pos - 1) (added + 1)
      else
        insertSliceLoop rest
          (items.insertIdx (pos + search less items v pos) v)
          (pos + search less items v pos - 2) (added + 1)

/-- Model of `set.InsertSlice(slice, sorted)`: sort the argument in place
unless the caller asserts it sorted, adopt the argument directly when the
container is empty and `sorted` is true, otherwise run the merge loop. -/
def insertSlice (items slice : List α) (sorted : Bool) : List α × Nat :=
  if items.length = 0 ∧ sorted = true then (slice, slice.length)
  else insertSliceLoop less equal
    (if sorted then slice else setSort less slice) items 0 0

/-- Model of `set.ReplaceOne`.  The overwrite branch
(`p.rv.Index(pos).Set(...); return`) returns without incrementing the named
result `replaced`, so it yields count 0. -/
def replaceOne (items : List α) (v : α) : List α × Nat :=
  if items.length = 0 then (items ++ [v], 1)
  else
    if h : search less items v 0 < items.length then
      if equal items[search less items v 0] v then
        (items.set (search less items v 0) v, 0)
      else if less items[search less items v 0] v then
        (items.insertIdx (search less items v 0 + 1) v, 1)
      else (items.insertIdx (search less items v 0) v, 1)
    else (items.insertIdx (search less items v 0) v, 1)

/-- The merge loop of `set.ReplaceSlice`; identical to the `InsertSlice`
loop except that on `equal` the stored element is overwritten in place
(`p.rv.Index(pos).Set(ri)`) and, as in `ReplaceOne`, the counter is not
incremented there. -/
def replaceSliceLoop : List α → List α → Nat → Nat → List α × Nat
  | [], items, _, replaced => (items, replaced)
  | v :: rest, items, pos, replaced =>
    if items.length = 0 then
      replaceSliceLoop rest (items ++ [v]) pos (replaced + 1)
    else
      if h : pos + search less items v pos < items.length then
        if equal items[pos + search less items v pos] v then
          replaceSliceLoop rest (items.set (pos + search less items v pos) v)
            (pos + search less items v pos) replaced
        else if less items[pos + search less items v pos] v then
          replaceSliceLoop rest
            (items.insertIdx (pos + search less items v pos + 1) v)
            (pos + search less items v pos - 1) (replaced + 1)
        else
          replaceSliceLoop rest
            (items.insertIdx (pos + search less items v pos) v)
            (pos + search less items v pos - 1) (replaced + 1)
      else
        replaceSliceLoop rest
          (items.insertIdx (pos + search less items v pos) v)
          (pos + search less items v pos - 2) (replaced + 1)

/-- Model of `set.ReplaceSlice(slice, sorted)`. -/
def replaceSlice (items slice : List α) (sorted : Bool) : List α × Nat :=
  if items.length = 0 ∧ sorted = true then (slice, slice.length)
  else replaceSliceLoop less equal
    (if sorted then slice else setSort less slice) items 0 0

/-- Model of `set.EraseOne`.  `ReflectErase(slice, pos)` removes index `pos`
and leaves the slice unchanged when `pos` is at or past the end, i.e. it is
`List.eraseIdx pos`. -/
def eraseOne (items : List α) (v : α) : List α × Nat :=
  if items.length = 0 then (items, 0)
  else
    if h : search less items v 0 < items.length then
      if equal items[search less items v 0] v then
        (items.eraseIdx (search less items v 0), 1)
      else (items, 0)
    else (items, 0)

/-- The loop of `set.EraseSlice`
(`for i := 0; i < rv.Len() && pos < p.rv.Len(); i++`): the second guard is
re-checked before every iteration, and a cursor that reaches the end of the
container stops the loop with the remaining queried elements unprocessed. -/
def eraseSliceLoop : List α → List α → Nat → Nat → List α × Nat
  | [], items, _, deled => (items, deled)
  | v :: rest, items, pos, deled =>
    if pos < items.length then
      if h : pos + search less items v pos < items.length then
        if equal items[pos + search less items v pos] v then
          eraseSliceLoop rest (items.eraseIdx (pos + search less items v pos))
            (pos + search less items v pos) (deled + 1)
        else eraseSliceLoop rest items (pos + search less items v pos) deled
      else eraseSliceLoop rest items (pos + search less items v pos) deled
    else (items, deled)

/-- Model of `set.EraseSlice(slice, sorted)`.  Note that on an empty
container the method returns before sorting the caller's slice. -/
def eraseSlice (items slice : List α) (sorted : Bool) : List α × Nat :=
  if items.length = 0 then (items, 0)
  else eraseSliceLoop less equal
    (if sorted then slice else setSort less slice) items 0 0

/-- The loop of `set.hasSlice`
(`for i := 0; i < rv.Len() && pos < p.rv.Len(); i++`): a query element is
looked up from the advancing cursor; absence fails immediately, but a
cursor at or past the end of the container stops the loop and the function
returns true. -/
def hasSliceLoop : List α → List α → Nat → Bool
  | [], _, _ => true
  | v :: rest, items, pos =>
    if pos < items.length then
      if h : pos + search less items v pos < items.length then
        if equal items[pos + search less items v pos] v then
          hasSliceLoop rest items (pos + search less items v pos)
        else false
      else false
    else true

/-- Model of `set.hasSlice(slice, pos)`: sorts the caller's slice in place,
fails when the query is longer than the container, succeeds on an empty
container, otherwise runs the cursor loop. -/
def hasSlice (items slice : List α) (pos : Nat) : Bool :=
  if items.length < (setSort less slice).length then false
  else if items.length = 0 then true
  else hasSliceLoop less equal (setSort less slice) items pos

/-- The loop of `set.Intersection`: walk the other set's items with a
cursor into the receiver's items; when the element under the cursor is
`equal` to the walked element, append the receiver-side element.  A cursor
at the end makes the iteration `continue`, after which the loop guard
`pos < p.rv.Len()` stops the walk. -/
def intersectionLoop : List α → List α → Nat → List α → List α
  | [], _, _, dst => dst
  | e :: rest, items, pos, dst =>
    if pos < items.length then
      if h : pos + search less items e pos < items.length then
        if equal items[pos + search less items e pos] e then
          intersectionLoop rest items (pos + search less items e pos)
            (dst ++ [items[pos + search less items e pos]])
        else intersectionLoop rest items (pos + search less items e pos) dst
      else intersectionLoop rest items (pos + search less items e pos) dst
    else dst

/-- Model of `set.Intersection(s)`: returns the items of the new set built
from the walk; the receiver's own items are not modified. -/
def intersection (self other : List α) : List α :=
  intersectionLoop less equal other self 0 []

/-- Model of `safeSet.Intersection(s)`: the Go method locks, evaluates
`p.set.Intersection(s)` — whose result, a freshly built set, it discards —
unlocks and returns the receiver.  The first component is the wrapper's
inner items after the call, the second the intersection value the
unwrapped method computed and the wrapper threw away. -/
def safeSetIntersection (inner other : List α) : List α × List α :=
  (inner, intersection less equal inner other)

/-- Items of a set built by the public constructor `New(slice, less, equal)`
(also `NewStable`, and the typed helpers `Ints`, `Strings`, ...): `newSet`
starts from an empty reflected slice and runs `InsertSlice(slice, false)`
when the initial slice is non-empty; for an empty initial slice it adopts
it directly, which coincides with the loop's result. -/
def newSetItems (init : List α) : List α :=
  (insertSlice less equal [] init false).1

/-- One public mutating call on the container: `Insert`, `Replace` or
`Erase`, with a single element or a slice argument.  The dispatch in
`set.Insert`/`set.Replace`/`set.Erase` sends slice-typed arguments to the
`...Slice` methods with `sorted = false` and element-typed arguments to
the `...One` methods. -/
inductive SetOp (α : Type) where
  | insert1 (v : α)
  | insertN (b : List α)
  | replace1 (v : α)
  | replaceN (b : List α)
  | erase1 (v : α)
  | eraseN (b : List α)

/-- Effect of one public mutating call on the stored items. -/
def applyOp (items : List α) : SetOp α → List α
  | .insert1 v => (insertOne less equal items v).1
  | .insertN b => (insertSlice less equal items b false).1
  | .replace1 v => (replaceOne less equal items v).1
  | .replaceN b => (replaceSlice less equal items b false).1
  | .erase1 v => (eraseOne less equal items v).1
  | .eraseN b => (eraseSlice less equal items b false).1

/-- Contents of the caller's slice argument after `set.hasSlice` (the
method sorts the argument in place before walking it). -/
def hasSliceArgAfter (slice : List α) : List α := setSort less slice

/-- Contents of the caller's slice argument after `InsertSlice` or
`ReplaceSlice` with `sorted = false` (both sort the argument first). -/
def insertSliceArgAfter (slice : List α) : List α := setSort less slice

/-- Contents of the caller's slice argument after `EraseSlice` with
`sorted = false`: the method returns before sorting when the container is
empty, so the argument is only sorted when the container is non-empty. -/
def eraseSliceArgAfter (items slice : List α) : List α :=
  if items.length = 0 then slice else setSort less slice

end Container

/-- A strict weak order, as assumed of the caller-supplied `less`:
irreflexive, transitive, and with transitive incomparability. -/
def IsSWO {α : Type} (less : α → α → Bool) : Prop :=
  (∀ a, less a a = false) ∧
  (∀ a b c, less a b = true → less b c = true → less a c = true) ∧
  (∀ a b c, less a b = false → less b a = false →
    less b c = false → less c b = false → less a c = false ∧ less c a = false)

section SWOFacts

variable {α : Type} {less : α → α → Bool}

theorem IsSWO.irrefl (h : IsSWO less) (a : α) : less a a = false := h.1 a

theorem IsSWO.trans (h : IsSWO less) {a b c : α}
    (h1 : less a b = true) (h2 : less b c = true) : less a c = true :=
  h.2.1 a b c h1 h2

theorem IsSWO.asymm (h : IsSWO less) {a b : α}
    (h1 : less a b = true) : less b a = false := by
  cases h2 : less b a
  · rfl
  · exact absurd (h.trans h1 h2) (by simp [h.irrefl a])

/-- In a strict weak order, `b < c` together with `¬(b < a)` forces
`a < c`. -/
theorem IsSWO.step1 (h : IsSWO less) {a b c : α}
    (hbc : less b c = true) (hba : less b a = false) : less a c = true := by
  cases hac : less a c
  · cases hab : less a b
    · cases hca : less c a
      · have hincomp := h.2.2 b a c hba hab hac hca
        rw [hincomp.1] at hbc
        cases hbc
      · exact absurd (h.trans hbc hca) (by simp [hba])
    · exact absurd (h.trans hab hbc) (by simp [hac])
  · rfl

/-- In a strict weak order, `a < b` together with `¬(c < b)` forces
`a < c`. -/
theorem IsSWO.step2 (h : IsSWO less) {a b c : α}
    (hab : less a b = true) (hcb : less c b = false) : less a c = true := by
  cases hac : less a c
  · cases hbc : less b c
    · cases hca : less c a
      · have hincomp := h.2.2 a c b hac hca hcb hbc
        rw [hincomp.1] at hab
        cases hab
      · exact absurd (h.trans hca hab) (by simp [hcb])
    · exact absurd (h.trans hab hbc) (by simp [hac])
  · rfl

/-- The non-strict companion `¬(b < a)` of a strict weak order is total. -/
theorem IsSWO.le_total (h : IsSWO less) (a b : α) :
    less b a = false ∨ less a b = false := by
  cases h1 : less b a
  · exact Or.inl rfl
  · exact Or.inr (h.asymm h1)

/-- The non-strict companion `¬(b < a)` of a strict weak order is
transitive. -/
theorem IsSWO.le_trans (h : IsSWO less) {a b c : α}
    (h1 : less b a = false) (h2 : less c b = false) : less c a = false := by
  cases h3 : less c a
  · rfl
  · exact absurd (h.step1 h3 h2) (by simp [h1])

end SWOFacts

section SortFacts

variable {α : Type} {less : α → α → Bool} (le : α → α → Bool)

theorem insSorted_perm (v : α) (l : List α) :
    List.Perm (insSorted le v l) (v :: l) := by
  induction l with
  | nil => simp [insSorted]
  | cons a t ih =>
    simp only [insSorted]
    by_cases hle : le v a = true
    · rw [if_pos hle]
    · rw [if_neg hle]
      exact ((ih.cons a).trans (List.Perm.swap v a t))

theorem mem_insSorted (v : α) (l : List α) (x : α) :
    x ∈ insSorted le v l ↔ x = v ∨ x ∈ l := by
  have h := (insSorted_perm le v l).mem_iff (a := x)
  simp only [List.mem_cons] at h
  exact h

theorem pairwise_insSorted
    (htot : ∀ a b : α, le a b = true ∨ le b a = true)
    (htrans : ∀ a b c : α, le a b = true → le b c = true → le a c = true)
    (v : α) (l : List α) (hl : l.Pairwise (fun a b => le a b = true)) :
    (insSorted le v l).Pairwise (fun a b => le a b = true) := by
  induction l with
  | nil => simp [insSorted]
  | cons a t ih =>
    rw [List.pairwise_cons] at hl
    simp only [insSorted]
    by_cases hle : le v a = true
    · rw [if_pos hle]
      refine List.pairwise_cons.2 ⟨?_, List.pairwise_cons.2 hl⟩
      intro b hb
      rcases List.mem_cons.1 hb with hb | hb
      · exact hb ▸ hle
      · exact htrans v a b hle (hl.1 b hb)
    · rw [if_neg hle]
      refine List.pairwise_cons.2 ⟨?_, ih hl.2⟩
      intro b hb
      rcases (mem_insSorted le v t b).1 hb with hb | hb
      · subst hb
        rcases htot a b with h | h
        · exact h
        · exact absurd h (by simpa using hle)
      · exact hl.1 b hb

theorem sortBy_perm (l : List α) : List.Perm (sortBy le l) l := by
  induction l with
  | nil => rfl
  | cons v t ih =>
    exact (insSorted_perm le v (sortBy le t)).trans (ih.cons v)

theorem sortBy_pairwise
    (htot : ∀ a b : α, le a b = true ∨ le b a = true)
    (htrans : ∀ a b c : α, le a b = true → le b c = true → le a c = true)
    (l : List α) : (sortBy le l).Pairwise (fun a b => le a b = true) := by
  induction l with
  | nil => simp [sortBy]
  | cons v t ih => exact pairwise_insSorted le htot htrans v (sortBy le t) ih

theorem goIsSorted_iff_chain' (l : List α) :
    goIsSorted less l = true ↔ l.Chain' (fun a b => less b a = false) := by
  induction l with
  | nil => simp [goIsSorted]
  | cons a t ih =>
    cases t with
    | nil => simp [goIsSorted]
    | cons b t' =>
      rw [List.chain'_cons, ← ih]
      simp only [goIsSorted, Bool.and_eq_true, Bool.not_eq_true']

/-- A weakly sorted list (`Pairwise`, non-strict) is exactly what
`goIsSorted` accepts, given a strict weak order. -/
theorem goIsSorted_iff_pairwise (hswo : IsSWO less) (l : List α) :
    goIsSorted less l = true ↔
      l.Pairwise (fun a b => less b a = false) := by
  rw [goIsSorted_iff_chain']
  haveI : IsTrans α (fun a b : α => less b a = false) :=
    ⟨fun _ _ _ h1 h2 => hswo.le_trans h1 h2⟩
  exact List.chain'_iff_pairwise

theorem setSort_perm (s : List α) : List.Perm (setSort less s) s := by
  unfold setSort
  by_cases h : goIsSorted less s = true
  · rw [if_pos h]
  · rw [if_neg h]
    exact sortBy_perm _ s

theorem setSort_pairwise (hswo : IsSWO less) (s : List α) :
    (setSort less s).Pairwise (fun a b => less b a = false) := by
  unfold setSort
  by_cases h : goIsSorted less s = true
  · rw [if_pos h]
    exact (goIsSorted_iff_pairwise hswo s).1 h
  · rw [if_neg h]
    have htot : ∀ a b : α, (!less b a) = true ∨ (!less a b) = true := by
      intro a b
      rcases hswo.le_total a b with h1 | h1
      · exact Or.inl (by simp [h1])
      · exact Or.inr (by simp [h1])
    have htrans : ∀ a b c : α,
        (!less b a) = true → (!less c b) = true → (!less c a) = true := by
      intro a b c h1 h2
      simp only [Bool.not_eq_true'] at h1 h2 ⊢
      exact hswo.le_trans h1 h2
    have hp := sortBy_pairwise (fun a b : α => !less b a) htot htrans s
    refine hp.imp ?_
    intro a b h1
    simpa using h1

/-- If the argument was not already sorted, `set.sort` observably reorders
it: the result is a different list (any sorted list differs from an
unsorted one). -/
theorem setSort_ne (hswo : IsSWO less) (s : List α)
    (h : goIsSorted less s = false) : setSort less s ≠ s := by
  intro heq
  have := setSort_pairwise hswo s
  rw [heq] at this
  rw [(goIsSorted_iff_pairwise hswo s).2 this] at h
  cases h

end SortFacts

section SearchFacts

variable {α : Type} {less : α → α → Bool}

/-- Unfold `List.getD` at an in-range index. -/
theorem getD_of_lt {α : Type} (l : List α) (d : α) (n : Nat)
    (h : n < l.length) : l.getD n d = l[n] := by
  simp [List.getD_eq_getElem?_getD, List.getElem?_eq_getElem h]

theorem search_le (less : α → α → Bool) (items : List α) (v : α) (pos : Nat) :
    search less items v pos ≤ items.length - pos :=
  sortSearch_le _ _

/-- Where the search stops (strictly inside the container), the element is
not less than the probe.  Needs no sortedness. -/
theorem search_stop_not_less (less : α → α → Bool) (items : List α) (v : α)
    (pos : Nat) (hpos : pos ≤ items.length)
    (h : pos + search less items v pos < items.length) :
    less (items.getD (pos + search less items v pos) v) v = false := by
  unfold search at h ⊢
  have h2 := sortSearch_f_true (items.length - pos)
    (fun i => !less (items.getD (pos + i) v) v) (by omega)
  simp only [Bool.not_eq_true'] at h2
  exact h2

/-- Below where the search stops (and at or after `pos`), every element is
less than the probe — this needs the searched region to be weakly sorted
under a strict weak order, which makes the search predicate monotone. -/
theorem search_before_less (hswo : IsSWO less) (items : List α) (v : α)
    (pos : Nat)
    (hsorted : items.Pairwise (fun a b => less b a = false)) :
    ∀ k : Nat, pos ≤ k → k < pos + search less items v pos →
      less (items.getD k v) v = true := by
  intro k hk1 hk2
  have hr := search_le less items v pos
  have hklen : k < items.length := by omega
  have mono : ∀ a b : Nat, a ≤ b → b < items.length - pos →
      (fun i => !less (items.getD (pos + i) v) v) a = true →
      (fun i => !less (items.getD (pos + i) v) v) b = true := by
    intro a b hab hb ha
    simp only [Bool.not_eq_true'] at ha ⊢
    cases hfb : less (items.getD (pos + b) v) v
    · rfl
    · by_cases hab2 : a = b
      · rw [hab2] at ha; rw [ha] at hfb; cases hfb
      · have hle : less (items.getD (pos + b) v) (items.getD (pos + a) v)
            = false := by
          have hg := (List.pairwise_iff_getElem.1 hsorted) (pos + a) (pos + b)
            (by omega) (by omega) (by omega)
          rw [getD_of_lt items v (pos + a) (by omega),
            getD_of_lt items v (pos + b) (by omega)]
          exact hg
        exact absurd (hswo.step1 hfb hle) (by rw [ha]; decide)
  have hfk := sortSearch_f_false (items.length - pos)
    (fun i => !less (items.getD (pos + i) v) v) mono (k - pos) (by
      unfold search at hk2
      omega)
  have heq : pos + (k - pos) = k := by omega
  simp only [heq, Bool.not_eq_false'] at hfk
  exact hfk

/-- A lower bound (all elements before it less than `v`, the element at it,
if any, not less than `v`) is unique. -/
theorem lowerBound_unique (items : List α) (v : α) {a b : Nat}
    (ha1 : ∀ k : Nat, k < a → less (items.getD k v) v = true)
    (ha2 : a < items.length → less (items.getD a v) v = false)
    (ha3 : a ≤ items.length)
    (hb1 : ∀ k : Nat, k < b → less (items.getD k v) v = true)
    (hb2 : b < items.length → less (items.getD b v) v = false)
    (hb3 : b ≤ items.length) : a = b := by
  by_cases hab : a < b
  · exact absurd (hb1 a hab) (by rw [ha2 (by omega)]; decide)
  · by_cases hba : b < a
    · exact absurd (ha1 b hba) (by rw [hb2 (by omega)]; decide)
    · omega

/-- When everything strictly before the cursor is already less than the
probe, searching from the cursor finds the same lower bound as searching
from 0. -/
theorem search_from_cursor (hswo : IsSWO less) (items : List α) (v : α)
    (pos : Nat) (hpos : pos ≤ items.length)
    (hsorted : items.Pairwise (fun a b => less b a = false))
    (hcur : ∀ k : Nat, k < pos → less (items.getD k v) v = true) :
    search less items v 0 = pos + search less items v pos := by
  have h0 := search_le less items v 0
  have hp := search_le less items v pos
  refine lowerBound_unique items v
    (fun k hk => search_before_less hswo items v 0 hsorted k (by omega)
      (by omega))
    (fun h => by
      have hs := search_stop_not_less less items v 0 (by omega) (by omega)
      rwa [Nat.zero_add] at hs)
    (by omega)
    (fun k hk => by
      by_cases hkpos : k < pos
      · exact hcur k hkpos
      · exact search_before_less hswo items v pos hsorted k (by omega) hk)
    (fun h => search_stop_not_less less items v pos hpos h)
    (by omega)

end SearchFacts

section Invariant

variable {α : Type} {less equal : α → α → Bool}

/-- A strictly ascending list is weakly sorted. -/
theorem strict_weak (hswo : IsSWO less) {l : List α}
    (h : l.Pairwise (fun a b => less a b = true)) :
    l.Pairwise (fun a b => less b a = false) :=
  h.imp (fun h1 => hswo.asymm h1)

theorem insertIdx_split (v : α) :
    ∀ (n : Nat) (l : List α), n ≤ l.length →
      l.insertIdx n v = l.take n ++ v :: l.drop n := by
  intro n
  induction n with
  | zero => intro l _; simp
  | succ n ih =>
    intro l h
    cases l with
    | nil => simp at h
    | cons a t =>
      simp only [List.insertIdx_succ_cons, List.take_succ_cons,
        List.drop_succ_cons, List.cons_append]
      rw [ih t (by simpa using h)]

/-- Inserting a value at a position where everything before is `R`-below it
and everything at or after is `R`-above it preserves `Pairwise R`. -/
theorem pairwise_insertIdx_of {R : α → α → Prop} {l : List α} {v : α}
    {n : Nat} (hn : n ≤ l.length) (hl : l.Pairwise R)
    (hbef : ∀ (k : Nat), k < l.length → k < n →
      R (l.getD k v) v)
    (haft : ∀ (k : Nat), k < l.length → n ≤ k →
      R v (l.getD k v)) :
    (l.insertIdx n v).Pairwise R := by
  have hpg := List.pairwise_iff_getElem.1 hl
  rw [insertIdx_split v n l hn, List.pairwise_append]
  refine ⟨List.Pairwise.sublist (List.take_sublist n l) hl, ?_, ?_⟩
  · rw [List.pairwise_cons]
    refine ⟨?_, List.Pairwise.sublist (List.drop_sublist n l) hl⟩
    intro b hb
    obtain ⟨i, hi, hbi⟩ := List.mem_iff_getElem.1 hb
    have hni : n + i < l.length := by
      have := List.length_drop n l
      omega
    rw [List.getElem_drop] at hbi
    rw [← hbi, ← getD_of_lt l v (n + i) hni]
    exact haft (n + i) hni (by omega)
  · intro a ha b hb
    obtain ⟨k, hk, hak⟩ := List.mem_iff_getElem.1 ha
    have hkn : k < n := by
      have := List.length_take n l
      omega
    have hkl : k < l.length := by omega
    rw [List.getElem_take] at hak
    rcases List.mem_cons.1 hb with rfl | hb
    · rw [← hak, ← getD_of_lt l b k hkl]
      exact hbef k hkl hkn
    · obtain ⟨i, hi, hbi⟩ := List.mem_iff_getElem.1 hb
      have hni : n + i < l.length := by
        have := List.length_drop n l
        omega
      rw [List.getElem_drop] at hbi
      rw [← hak, ← hbi]
      exact hpg k (n + i) hkl hni (by omega)

/-- When the lower-bound probe finds a run-off or an unequal element that is
not less than `v`, compatibility of `equal` with order-equivalence makes `v`
strictly less than that element. -/
theorem absent_less
    (heq : ∀ a b : α, equal a b = true ↔ (less a b = false ∧ less b a = false))
    {e v : α} (hne : equal e v = false) (hnl : less e v = false) :
    less v e = true := by
  cases hvl : less v e
  · rw [(heq e v).2 ⟨hnl, hvl⟩] at hne
    cases hne
  · rfl

/-- Advancing the cursor by a search keeps every passed element strictly
less than every element still to be processed (the batch being weakly
sorted with `v` at its head). -/
theorem cursor_advance (hswo : IsSWO less) {items : List α} {v : α}
    {rest : List α} {pos : Nat}
    (hsorted : items.Pairwise (fun a b => less b a = false))
    (hrest : ∀ r ∈ rest, less r v = false)
    (hcur : ∀ (k : Nat), k < items.length → k < pos →
      ∀ w ∈ v :: rest, less (items.getD k w) w = true) :
    ∀ (k : Nat), k < items.length → k < pos + search less items v pos →
      ∀ w ∈ v :: rest, less (items.getD k w) w = true := by
  intro k hk hklt w hw
  have hgetw : items.getD k w = items[k] := getD_of_lt items w k hk
  have hgetv : items.getD k v = items[k] := getD_of_lt items v k hk
  have hkv : less items[k] v = true := by
    by_cases hkpos : k < pos
    · rw [← hgetv]
      exact hcur k hk hkpos v (List.mem_cons_self v rest)
    · have := search_before_less hswo items v pos hsorted k (by omega) hklt
      rwa [hgetv] at this
  rw [hgetw]
  rcases List.mem_cons.1 hw with rfl | hw2
  · exact hkv
  · exact hswo.step2 hkv (hrest w hw2)

/-- `InsertOne` preserves the strictly-ascending invariant when `equal` is
order-equivalence under a strict weak order `less`. -/
theorem insertOne_pairwise (hswo : IsSWO less)
    (heq : ∀ a b : α, equal a b = true ↔ (less a b = false ∧ less b a = false))
    (items : List α) (v : α)
    (hs : items.Pairwise (fun a b => less a b = true)) :
    (insertOne less equal items v).1.Pairwise (fun a b => less a b = true) := by
  have hweak := strict_weak hswo hs
  have hpg := List.pairwise_iff_getElem.1 hs
  unfold insertOne
  by_cases h0 : items.length = 0
  · rw [if_pos h0]
    rw [List.length_eq_zero.1 h0]
    simp
  · rw [if_neg h0]
    have hle := search_le less items v 0
    by_cases hlt : search less items v 0 < items.length
    · rw [dif_pos hlt]
      have hstop : less items[search less items v 0] v = false := by
        have := search_stop_not_less less items v 0 (by omega) (by omega)
        rwa [Nat.zero_add, getD_of_lt items v _ hlt] at this
      by_cases heqv : equal items[search less items v 0] v = true
      · rw [if_pos heqv]
        exact hs
      · rw [if_neg heqv, if_neg (by rw [hstop]; exact Bool.false_ne_true)]
        refine pairwise_insertIdx_of (by omega) hs ?_ ?_
        · intro k hk hkn
          exact search_before_less hswo items v 0 hweak k (by omega) (by omega)
        · intro k hk hkn
          rw [getD_of_lt items v k hk]
          have hv : less v items[search less items v 0] = true :=
            absent_less heq (by
              revert heqv; cases equal items[search less items v 0] v <;> simp)
              hstop
          by_cases hkeq : k = search less items v 0
          · subst hkeq; exact hv
          · exact hswo.trans hv (hpg _ k hlt hk (by omega))
    · rw [dif_neg hlt]
      have hpos : search less items v 0 = items.length := by omega
      refine pairwise_insertIdx_of (by omega) hs ?_ ?_
      · intro k hk hkn
        exact search_before_less hswo items v 0 hweak k (by omega) (by omega)
      · intro k hk hkn
        omega

/-- Overwriting the element at a position with a value that sorts strictly
after everything before the position and strictly before everything after
it preserves `Pairwise R`. -/
theorem pairwise_set_of {R : α → α → Prop} {l : List α} {v : α} {n : Nat}
    (hl : l.Pairwise R)
    (hbef : ∀ (k : Nat), k < l.length → k < n → R (l.getD k v) v)
    (haft : ∀ (k : Nat), k < l.length → n < k → R v (l.getD k v)) :
    (l.set n v).Pairwise R := by
  have hpg := List.pairwise_iff_getElem.1 hl
  rw [List.pairwise_iff_getElem]
  intro i j hi hj hij
  rw [List.length_set] at hi hj
  rw [List.getElem_set, List.getElem_set]
  by_cases hni : n = i
  · rw [if_pos hni, if_neg (by omega)]
    have := haft j hj (by omega)
    rwa [getD_of_lt l v j hj] at this
  · rw [if_neg hni]
    by_cases hnj : n = j
    · rw [if_pos hnj]
      have := hbef i hi (by omega)
      rwa [getD_of_lt l v i hi] at this
    · rw [if_neg hnj]
      exact hpg i j hi hj hij

/-- The `InsertSlice` merge loop preserves the strictly-ascending
invariant.  The cursor invariant carried through the loop: every item
strictly before the cursor is less than every batch element still to be
processed. -/
theorem insertSliceLoop_pairwise (hswo : IsSWO less)
    (heq : ∀ a b : α, equal a b = true ↔ (less a b = false ∧ less b a = false)) :
    ∀ (batch items : List α) (pos added : Nat),
      items.Pairwise (fun a b => less a b = true) →
      batch.Pairwise (fun a b => less b a = false) →
      pos ≤ items.length →
      (∀ (k : Nat), k < items.length → k < pos →
        ∀ w ∈ batch, less (items.getD k w) w = true) →
      (insertSliceLoop less equal batch items pos added).1.Pairwise
        (fun a b => less a b = true) := by
  intro batch
  induction batch with
  | nil => intro items pos added hs _ _ _; exact hs
  | cons v rest ih =>
    intro items pos added hs hbatch hpos hcur
    have hrest : ∀ r ∈ rest, less r v = false :=
      fun r hr => (List.pairwise_cons.1 hbatch).1 r hr
    have hbrest : rest.Pairwise (fun a b => less b a = false) :=
      (List.pairwise_cons.1 hbatch).2
    simp only [insertSliceLoop]
    by_cases h0 : items.length = 0
    · rw [if_pos h0]
      refine ih (items ++ [v]) pos (added + 1) ?_ hbrest ?_ ?_
      · rw [List.length_eq_zero.1 h0]; simp
      · rw [List.length_append]; omega
      · intro k hk hkp w hw
        omega
    · rw [if_neg h0]
      have hle := search_le less items v pos
      have hadv := cursor_advance hswo (strict_weak hswo hs) hrest hcur
      have hpg := List.pairwise_iff_getElem.1 hs
      by_cases hlt : pos + search less items v pos < items.length
      · rw [dif_pos hlt]
        have hstop : less items[pos + search less items v pos] v = false := by
          have := search_stop_not_less less items v pos hpos hlt
          rwa [getD_of_lt items v _ hlt] at this
        by_cases heqv : equal items[pos + search less items v pos] v = true
        · rw [if_pos heqv]
          refine ih items (pos + search less items v pos) added hs hbrest
            (by omega) ?_
          intro k hk hkp w hw
          exact hadv k hk hkp w (List.mem_cons_of_mem v hw)
        · rw [if_neg heqv, if_neg (by rw [hstop]; exact Bool.false_ne_true)]
          have hvlt : less v items[pos + search less items v pos] = true :=
            absent_less heq (by
              revert heqv
              cases equal items[pos + search less items v pos] v <;> simp)
              hstop
          have hnew : (items.insertIdx (pos + search less items v pos) v).Pairwise
              (fun a b => less a b = true) := by
            refine pairwise_insertIdx_of (by omega) hs ?_ ?_
            · intro k hk hkn
              exact hadv k hk hkn v (List.mem_cons_self v rest)
            · intro k hk hkn
              rw [getD_of_lt items v k hk]
              by_cases hkeq : k = pos + search less items v pos
              · subst hkeq; exact hvlt
              · exact hswo.trans hvlt (hpg _ k hlt hk (by omega))
          have hlen : (items.insertIdx (pos + search less items v pos) v).length
              = items.length + 1 := List.length_insertIdx _ _ (by omega)
          refine ih _ (pos + search less items v pos - 1) (added + 1) hnew
            hbrest (by omega) ?_
          intro k hk hkp w hw
          have hkitems : k < items.length := by omega
          have hgk : (items.insertIdx (pos + search less items v pos) v).getD k w
              = items.getD k w := by
            rw [getD_of_lt _ w k (by omega), getD_of_lt items w k hkitems]
            exact List.getElem_insertIdx_of_lt items v _ k (by omega) hkitems
          rw [hgk]
          exact hadv k hkitems (by omega) w (List.mem_cons_of_mem v hw)
      · rw [dif_neg hlt]
        have hpose : pos + search less items v pos = items.length := by omega
        have hnew : (items.insertIdx (pos + search less items v pos) v).Pairwise
            (fun a b => less a b = true) := by
          refine pairwise_insertIdx_of (by omega) hs ?_ ?_
          · intro k hk hkn
            exact hadv k hk (by omega) v (List.mem_cons_self v rest)
          · intro k hk hkn
            omega
        have hlen : (items.insertIdx (pos + search less items v pos) v).length
            = items.length + 1 := List.length_insertIdx _ _ (by omega)
        refine ih _ (pos + search less items v pos - 2) (added + 1) hnew
          hbrest (by omega) ?_
        intro k hk hkp w hw
        have hkitems : k < items.length := by omega
        have hgk : (items.insertIdx (pos + search less items v pos) v).getD k w
            = items.getD k w := by
          rw [getD_of_lt _ w k (by omega), getD_of_lt items w k hkitems]
          exact List.getElem_insertIdx_of_lt items v _ k (by omega) hkitems
        rw [hgk]
        exact hadv k hkitems (by omega) w (List.mem_cons_of_mem v hw)

/-- The `ReplaceSlice` merge loop preserves the strictly-ascending
invariant; the overwrite branch replaces an order-equivalent element in
place, which keeps strict ascent on both sides. -/
theorem replaceSliceLoop_pairwise (hswo : IsSWO less)
    (heq : ∀ a b : α, equal a b = true ↔ (less a b = false ∧ less b a = false)) :
    ∀ (batch items : List α) (pos replaced : Nat),
      items.Pairwise (fun a b => less a b = true) →
      batch.Pairwise (fun a b => less b a = false) →
      pos ≤ items.length →
      (∀ (k : Nat), k < items.length → k < pos →
        ∀ w ∈ batch, less (items.getD k w) w = true) →
      (replaceSliceLoop less equal batch items pos replaced).1.Pairwise
        (fun a b => less a b = true) := by
  intro batch
  induction batch with
  | nil => intro items pos replaced hs _ _ _; exact hs
  | cons v rest ih =>
    intro items pos replaced hs hbatch hpos hcur
    have hrest : ∀ r ∈ rest, less r v = false :=
      fun r hr => (List.pairwise_cons.1 hbatch).1 r hr
    have hbrest : rest.Pairwise (fun a b => less b a = false) :=
      (List.pairwise_cons.1 hbatch).2
    simp only [replaceSliceLoop]
    by_cases h0 : items.length = 0
    · rw [if_pos h0]
      refine ih (items ++ [v]) pos (replaced + 1) ?_ hbrest ?_ ?_
      · rw [List.length_eq_zero.1 h0]; simp
      · rw [List.length_append]; omega
      · intro k hk hkp w hw
        omega
    · rw [if_neg h0]
      have hle := search_le less items v pos
      have hadv := cursor_advance hswo (strict_weak hswo hs) hrest hcur
      have hpg := List.pairwise_iff_getElem.1 hs
      by_cases hlt : pos + search less items v pos < items.length
      · rw [dif_pos hlt]
        have hstop : less items[pos + search less items v pos] v = false := by
          have := search_stop_not_less less items v pos hpos hlt
          rwa [getD_of_lt items v _ hlt] at this
        by_cases heqv : equal items[pos + search less items v pos] v = true
        · rw [if_pos heqv]
          have hold := (heq items[pos + search less items v pos] v).1 heqv
          have hnew : (items.set (pos + search less items v pos) v).Pairwise
              (fun a b => less a b = true) := by
            refine pairwise_set_of hs ?_ ?_
            · intro k hk hkn
              exact hadv k hk hkn v (List.mem_cons_self v rest)
            · intro k hk hkn
              rw [getD_of_lt items v k hk]
              exact hswo.step1 (hpg _ k hlt hk (by omega)) hold.1
          refine ih _ (pos + search less items v pos) replaced hnew hbrest
            (by rw [List.length_set]; omega) ?_
          intro k hk hkp w hw
          rw [List.length_set] at hk
          have hgk : (items.set (pos + search less items v pos) v).getD k w
              = items.getD k w := by
            rw [getD_of_lt _ w k (by rw [List.length_set]; omega),
              getD_of_lt items w k hk, List.getElem_set, if_neg (by omega)]
          rw [hgk]
          exact hadv k hk (by omega) w (List.mem_cons_of_mem v hw)
        · rw [if_neg heqv, if_neg (by rw [hstop]; exact Bool.false_ne_true)]
          have hvlt : less v items[pos + search less items v pos] = true :=
            absent_less heq (by
              revert heqv
              cases equal items[pos + search less items v pos] v <;> simp)
              hstop
          have hnew : (items.insertIdx (pos + search less items v pos) v).Pairwise
              (fun a b => less a b = true) := by
            refine pairwise_insertIdx_of (by omega) hs ?_ ?_
            · intro k hk hkn
              exact hadv k hk hkn v (List.mem_cons_self v rest)
            · intro k hk hkn
              rw [getD_of_lt items v k hk]
              by_cases hkeq : k = pos + search less items v pos
              · subst hkeq; exact hvlt
              · exact hswo.trans hvlt (hpg _ k hlt hk (by omega))
          have hlen : (items.insertIdx (pos + search less items v pos) v).length
              = items.length + 1 := List.length_insertIdx _ _ (by omega)
          refine ih _ (pos + search less items v pos - 1) (replaced + 1) hnew
            hbrest (by omega) ?_
          intro k hk hkp w hw
          have hkitems : k < items.length := by omega
          have hgk : (items.insertIdx (pos + search less items v pos) v).getD k w
              = items.getD k w := by
            rw [getD_of_lt _ w k (by omega), getD_of_lt items w k hkitems]
            exact List.getElem_insertIdx_of_lt items v _ k (by omega) hkitems
          rw [hgk]
          exact hadv k hkitems (by omega) w (List.mem_cons_of_mem v hw)
      · rw [dif_neg hlt]
        have hpose : pos + search less items v pos = items.length := by omega
        have hnew : (items.insertIdx (pos + search less items v pos) v).Pairwise
            (fun a b => less a b = true) := by
          refine pairwise_insertIdx_of (by omega) hs ?_ ?_
          · intro k hk hkn
            exact hadv k hk (by omega) v (List.mem_cons_self v rest)
          · intro k hk hkn
            omega
        have hlen : (items.insertIdx (pos + search less items v pos) v).length
            = items.length + 1 := List.length_insertIdx _ _ (by omega)
        refine ih _ (pos + search less items v pos - 2) (replaced + 1) hnew
          hbrest (by omega) ?_
        intro k hk hkp w hw
        have hkitems : k < items.length := by omega
        have hgk : (items.insertIdx (pos + search less items v pos) v).getD k w
            = items.getD k w := by
          rw [getD_of_lt _ w k (by omega), getD_of_lt items w k hkitems]
          exact List.getElem_insertIdx_of_lt items v _ k (by omega) hkitems
        rw [hgk]
        exact hadv k hkitems (by omega) w (List.mem_cons_of_mem v hw)

/-- `ReplaceOne` preserves the strictly-ascending invariant. -/
theorem replaceOne_pairwise (hswo : IsSWO less)
    (heq : ∀ a b : α, equal a b = true ↔ (less a b = false ∧ less b a = false))
    (items : List α) (v : α)
    (hs : items.Pairwise (fun a b => less a b = true)) :
    (replaceOne less equal items v).1.Pairwise (fun a b => less a b = true) := by
  have hweak := strict_weak hswo hs
  have hpg := List.pairwise_iff_getElem.1 hs
  unfold replaceOne
  by_cases h0 : items.length = 0
  · rw [if_pos h0]
    rw [List.length_eq_zero.1 h0]
    simp
  · rw [if_neg h0]
    have hle := search_le less items v 0
    by_cases hlt : search less items v 0 < items.length
    · rw [dif_pos hlt]
      have hstop : less items[search less items v 0] v = false := by
        have := search_stop_not_less less items v 0 (by omega) (by omega)
        rwa [Nat.zero_add, getD_of_lt items v _ hlt] at this
      by_cases heqv : equal items[search less items v 0] v = true
      · rw [if_pos heqv]
        have hold := (heq items[search less items v 0] v).1 heqv
        refine pairwise_set_of hs ?_ ?_
        · intro k hk hkn
          exact search_before_less hswo items v 0 hweak k (by omega) (by omega)
        · intro k hk hkn
          rw [getD_of_lt items v k hk]
          exact hswo.step1 (hpg _ k hlt hk (by omega)) hold.1
      · rw [if_neg heqv, if_neg (by rw [hstop]; exact Bool.false_ne_true)]
        refine pairwise_insertIdx_of (by omega) hs ?_ ?_
        · intro k hk hkn
          exact search_before_less hswo items v 0 hweak k (by omega) (by omega)
        · intro k hk hkn
          rw [getD_of_lt items v k hk]
          have hv : less v items[search less items v 0] = true :=
            absent_less heq (by
              revert heqv; cases equal items[search less items v 0] v <;> simp)
              hstop
          by_cases hkeq : k = search less items v 0
          · subst hkeq; exact hv
          · exact hswo.trans hv (hpg _ k hlt hk (by omega))
    · rw [dif_neg hlt]
      refine pairwise_insertIdx_of (by omega) hs ?_ ?_
      · intro k hk hkn
        exact search_before_less hswo items v 0 hweak k (by omega) (by omega)
      · intro k hk hkn
        omega

/-- `EraseOne` only ever removes an element, so it preserves any
`Pairwise` invariant. -/
theorem eraseOne_pairwise {R : α → α → Prop} (items : List α) (v : α)
    (hs : items.Pairwise R) : (eraseOne less equal items v).1.Pairwise R := by
  unfold eraseOne
  by_cases h0 : items.length = 0
  · rw [if_pos h0]; exact hs
  · rw [if_neg h0]
    by_cases hlt : search less items v 0 < items.length
    · rw [dif_pos hlt]
      by_cases heqv : equal items[search less items v 0] v = true
      · rw [if_pos heqv]
        exact List.Pairwise.sublist (List.eraseIdx_sublist items _) hs
      · rw [if_neg heqv]; exact hs
    · rw [dif_neg hlt]; exact hs

/-- The `EraseSlice` loop only ever removes elements, so it preserves any
`Pairwise` invariant. -/
theorem eraseSliceLoop_pairwise {R : α → α → Prop} :
    ∀ (batch items : List α) (pos deled : Nat), items.Pairwise R →
      (eraseSliceLoop less equal batch items pos deled).1.Pairwise R := by
  intro batch
  induction batch with
  | nil => intro items pos deled hs; exact hs
  | cons v rest ih =>
    intro items pos deled hs
    simp only [eraseSliceLoop]
    by_cases hg : pos < items.length
    · rw [if_pos hg]
      by_cases hlt : pos + search less items v pos < items.length
      · rw [dif_pos hlt]
        by_cases heqv : equal items[pos + search less items v pos] v = true
        · rw [if_pos heqv]
          exact ih _ _ _
            (List.Pairwise.sublist (List.eraseIdx_sublist items _) hs)
        · rw [if_neg heqv]; exact ih _ _ _ hs
      · rw [dif_neg hlt]; exact ih _ _ _ hs
    · rw [if_neg hg]; exact hs

/-- Every public mutating call preserves the strictly-ascending invariant
(`equal` being order-equivalence under a strict weak order `less`). -/
theorem applyOp_pairwise (hswo : IsSWO less)
    (heq : ∀ a b : α, equal a b = true ↔ (less a b = false ∧ less b a = false))
    (items : List α) (op : SetOp α)
    (hs : items.Pairwise (fun a b => less a b = true)) :
    (applyOp less equal items op).Pairwise (fun a b => less a b = true) := by
  cases op with
  | insert1 v => exact insertOne_pairwise hswo heq items v hs
  | insertN b =>
    show (insertSlice less equal items b false).1.Pairwise _
    unfold insertSlice
    rw [if_neg (by simp)]
    exact insertSliceLoop_pairwise hswo heq _ items 0 0 hs
      (by rw [if_neg (by simp)]; exact setSort_pairwise hswo b)
      (by omega) (by omega)
  | replace1 v => exact replaceOne_pairwise hswo heq items v hs
  | replaceN b =>
    show (replaceSlice less equal items b false).1.Pairwise _
    unfold replaceSlice
    rw [if_neg (by simp)]
    exact replaceSliceLoop_pairwise hswo heq _ items 0 0 hs
      (by rw [if_neg (by simp)]; exact setSort_pairwise hswo b)
      (by omega) (by omega)
  | erase1 v => exact eraseOne_pairwise items v hs
  | eraseN b =>
    show (eraseSlice less equal items b false).1.Pairwise _
    unfold eraseSlice
    by_cases h0 : items.length = 0
    · rw [if_pos h0]; exact hs
    · rw [if_neg h0]
      exact eraseSliceLoop_pairwise _ items 0 0 hs

/-- A set built by the public constructors over a strictly compatible
`(less, equal)` pair is strictly ascending. -/
theorem newSetItems_pairwise (hswo : IsSWO less)
    (heq : ∀ a b : α, equal a b = true ↔ (less a b = false ∧ less b a = false))
    (init : List α) :
    (newSetItems less equal init).Pairwise (fun a b => less a b = true) := by
  unfold newSetItems insertSlice
  rw [if_neg (by simp)]
  exact insertSliceLoop_pairwise hswo heq _ [] 0 0 (by simp)
    (by rw [if_neg (by simp)]; exact setSort_pairwise hswo init)
    (by simp) (by omega)

/-- Any sequence of public mutating calls starting from a constructor-built
set keeps the items strictly ascending. -/
theorem foldOps_pairwise (hswo : IsSWO less)
    (heq : ∀ a b : α, equal a b = true ↔ (less a b = false ∧ less b a = false))
    (init : List α) (ops : List (SetOp α)) :
    (ops.foldl (applyOp less equal) (newSetItems less equal init)).Pairwise
      (fun a b => less a b = true) := by
  suffices h : ∀ (s : List α), s.Pairwise (fun a b => less a b = true) →
      (ops.foldl (applyOp less equal) s).Pairwise (fun a b => less a b = true) by
    exact h _ (newSetItems_pairwise hswo heq init)
  induction ops with
  | nil => intro s hs; exact hs
  | cons op rest ih =>
    intro s hs
    exact ih _ (applyOp_pairwise hswo heq s op hs)

/-- `InsertOne` preserves weak sortedness (adjacent `!less(next, prev)`)
for an arbitrary `equal` predicate: the inserted element lands at its lower
bound (or one past an order-tied element), which never creates an
inversion. -/
theorem insertOne_weak (hswo : IsSWO less) (items : List α) (v : α)
    (hs : items.Pairwise (fun a b => less b a = false)) :
    (insertOne less equal items v).1.Pairwise (fun a b => less b a = false) := by
  have hpg := List.pairwise_iff_getElem.1 hs
  unfold insertOne
  by_cases h0 : items.length = 0
  · rw [if_pos h0]
    rw [List.length_eq_zero.1 h0]
    simp
  · rw [if_neg h0]
    have hle := search_le less items v 0
    have hbef : ∀ (k : Nat), k < items.length → k < search less items v 0 →
        less v (items.getD k v) = false := by
      intro k hk hkn
      exact hswo.asymm
        (search_before_less hswo items v 0 hs k (by omega) (by omega))
    by_cases hlt : search less items v 0 < items.length
    · rw [dif_pos hlt]
      have hstop : less items[search less items v 0] v = false := by
        have := search_stop_not_less less items v 0 (by omega) (by omega)
        rwa [Nat.zero_add, getD_of_lt items v _ hlt] at this
      by_cases heqv : equal items[search less items v 0] v = true
      · rw [if_pos heqv]
        exact hs
      · rw [if_neg heqv, if_neg (by rw [hstop]; exact Bool.false_ne_true)]
        refine pairwise_insertIdx_of (by omega) hs hbef ?_
        intro k hk hkn
        rw [getD_of_lt items v k hk]
        by_cases hkeq : k = search less items v 0
        · subst hkeq; exact hstop
        · exact hswo.le_trans hstop (hpg _ k hlt hk (by omega))
    · rw [dif_neg hlt]
      refine pairwise_insertIdx_of (by omega) hs hbef ?_
      intro k hk hkn
      omega

/-- The `InsertSlice` merge loop preserves weak sortedness for an arbitrary
`equal` predicate. -/
theorem insertSliceLoop_weak (hswo : IsSWO less) :
    ∀ (batch items : List α) (pos added : Nat),
      items.Pairwise (fun a b => less b a = false) →
      batch.Pairwise (fun a b => less b a = false) →
      pos ≤ items.length →
      (∀ (k : Nat), k < items.length → k < pos →
        ∀ w ∈ batch, less (items.getD k w) w = true) →
      (insertSliceLoop less equal batch items pos added).1.Pairwise
        (fun a b => less b a = false) := by
  intro batch
  induction batch with
  | nil => intro items pos added hs _ _ _; exact hs
  | cons v rest ih =>
    intro items pos added hs hbatch hpos hcur
    have hrest : ∀ r ∈ rest, less r v = false :=
      fun r hr => (List.pairwise_cons.1 hbatch).1 r hr
    have hbrest : rest.Pairwise (fun a b => less b a = false) :=
      (List.pairwise_cons.1 hbatch).2
    simp only [insertSliceLoop]
    by_cases h0 : items.length = 0
    · rw [if_pos h0]
      refine ih (items ++ [v]) pos (added + 1) ?_ hbrest ?_ ?_
      · rw [List.length_eq_zero.1 h0]; simp
      · rw [List.length_append]; omega
      · intro k hk hkp w hw
        omega
    · rw [if_neg h0]
      have hle := search_le less items v pos
      have hadv := cursor_advance hswo hs hrest hcur
      have hpg := List.pairwise_iff_getElem.1 hs
      by_cases hlt : pos + search less items v pos < items.length
      · rw [dif_pos hlt]
        have hstop : less items[pos + search less items v pos] v = false := by
          have := search_stop_not_less less items v pos hpos hlt
          rwa [getD_of_lt items v _ hlt] at this
        by_cases heqv : equal items[pos + search less items v pos] v = true
        · rw [if_pos heqv]
          refine ih items (pos + search less items v pos) added hs hbrest
            (by omega) ?_
          intro k hk hkp w hw
          exact hadv k hk hkp w (List.mem_cons_of_mem v hw)
        · rw [if_neg heqv, if_neg (by rw [hstop]; exact Bool.false_ne_true)]
          have hnew : (items.insertIdx (pos + search less items v pos) v).Pairwise
              (fun a b => less b a = false) := by
            refine pairwise_insertIdx_of (by omega) hs ?_ ?_
            · intro k hk hkn
              exact hswo.asymm
                (hadv k hk hkn v (List.mem_cons_self v rest))
            · intro k hk hkn
              rw [getD_of_lt items v k hk]
              by_cases hkeq : k = pos + search less items v pos
              · subst hkeq; exact hstop
              · exact hswo.le_trans hstop (hpg _ k hlt hk (by omega))
          have hlen : (items.insertIdx (pos + search less items v pos) v).length
              = items.length + 1 := List.length_insertIdx _ _ (by omega)
          refine ih _ (pos + search less items v pos - 1) (added + 1) hnew
            hbrest (by omega) ?_
          intro k hk hkp w hw
          have hkitems : k < items.length := by omega
          have hgk : (items.insertIdx (pos + search less items v pos) v).getD k w
              = items.getD k w := by
            rw [getD_of_lt _ w k (by omega), getD_of_lt items w k hkitems]
            exact List.getElem_insertIdx_of_lt items v _ k (by omega) hkitems
          rw [hgk]
          exact hadv k hkitems (by omega) w (List.mem_cons_of_mem v hw)
      · rw [dif_neg hlt]
        have hpose : pos + search less items v pos = items.length := by omega
        have hnew : (items.insertIdx (pos + search less items v pos) v).Pairwise
            (fun a b => less b a = false) := by
          refine pairwise_insertIdx_of (by omega) hs ?_ ?_
          · intro k hk hkn
            exact hswo.asymm (hadv k hk (by omega) v (List.mem_cons_self v rest))
          · intro k hk hkn
            omega
        have hlen : (items.insertIdx (pos + search less items v pos) v).length
            = items.length + 1 := List.length_insertIdx _ _ (by omega)
        refine ih _ (pos + search less items v pos - 2) (added + 1) hnew
          hbrest (by omega) ?_
        intro k hk hkp w hw
        have hkitems : k < items.length := by omega
        have hgk : (items.insertIdx (pos + search less items v pos) v).getD k w
            = items.getD k w := by
          rw [getD_of_lt _ w k (by omega), getD_of_lt items w k hkitems]
          exact List.getElem_insertIdx_of_lt items v _ k (by omega) hkitems
        rw [hgk]
        exact hadv k hkitems (by omega) w (List.mem_cons_of_mem v hw)

/-- `ReplaceOne` preserves weak sortedness for an arbitrary `equal`
predicate: the overwritten slot holds an element that was order-tied with
the lower-bound element it replaces. -/
theorem replaceOne_weak (hswo : IsSWO less) (items : List α) (v : α)
    (hs : items.Pairwise (fun a b => less b a = false)) :
    (replaceOne less equal items v).1.Pairwise (fun a b => less b a = false) := by
  have hpg := List.pairwise_iff_getElem.1 hs
  unfold replaceOne
  by_cases h0 : items.length = 0
  · rw [if_pos h0]
    rw [List.length_eq_zero.1 h0]
    simp
  · rw [if_neg h0]
    have hle := search_le less items v 0
    have hbef : ∀ (k : Nat), k < items.length → k < search less items v 0 →
        less v (items.getD k v) = false := by
      intro k hk hkn
      exact hswo.asymm
        (search_before_less hswo items v 0 hs k (by omega) (by omega))
    by_cases hlt : search less items v 0 < items.length
    · rw [dif_pos hlt]
      have hstop : less items[search less items v 0] v = false := by
        have := search_stop_not_less less items v 0 (by omega) (by omega)
        rwa [Nat.zero_add, getD_of_lt items v _ hlt] at this
      by_cases heqv : equal items[search less items v 0] v = true
      · rw [if_pos heqv]
        refine pairwise_set_of hs hbef ?_
        intro k hk hkn
        rw [getD_of_lt items v k hk]
        exact hswo.le_trans hstop (hpg _ k hlt hk (by omega))
      · rw [if_neg heqv, if_neg (by rw [hstop]; exact Bool.false_ne_true)]
        refine pairwise_insertIdx_of (by omega) hs hbef ?_
        intro k hk hkn
        rw [getD_of_lt items v k hk]
        by_cases hkeq : k = search less items v 0
        · subst hkeq; exact hstop
        · exact hswo.le_trans hstop (hpg _ k hlt hk (by omega))
    · rw [dif_neg hlt]
      refine pairwise_insertIdx_of (by omega) hs hbef ?_
      intro k hk hkn
      omega

/-- The `ReplaceSlice` merge loop preserves weak sortedness for an
arbitrary `equal` predicate. -/
theorem replaceSliceLoop_weak (hswo : IsSWO less) :
    ∀ (batch items : List α) (pos replaced : Nat),
      items.Pairwise (fun a b => less b a = false) →
      batch.Pairwise (fun a b => less b a = false) →
      pos ≤ items.length →
      (∀ (k : Nat), k < items.length → k < pos →
        ∀ w ∈ batch, less (items.getD k w) w = true) →
      (replaceSliceLoop less equal batch items pos replaced).1.Pairwise
        (fun a b => less b a = false) := by
  intro batch
  induction batch with
  | nil => intro items pos replaced hs _ _ _; exact hs
  | cons v rest ih =>
    intro items pos replaced hs hbatch hpos hcur
    have hrest : ∀ r ∈ rest, less r v = false :=
      fun r hr => (List.pairwise_cons.1 hbatch).1 r hr
    have hbrest : rest.Pairwise (fun a b => less b a = false) :=
      (List.pairwise_cons.1 hbatch).2
    simp only [replaceSliceLoop]
    by_cases h0 : items.length = 0
    · rw [if_pos h0]
      refine ih (items ++ [v]) pos (replaced + 1) ?_ hbrest ?_ ?_
      · rw [List.length_eq_zero.1 h0]; simp
      · rw [List.length_append]; omega
      · intro k hk hkp w hw
        omega
    · rw [if_neg h0]
      have hle := search_le less items v pos
      have hadv := cursor_advance hswo hs hrest hcur
      have hpg := List.pairwise_iff_getElem.1 hs
      by_cases hlt : pos + search less items v pos < items.length
      · rw [dif_pos hlt]
        have hstop : less items[pos + search less items v pos] v = false := by
          have := search_stop_not_less less items v pos hpos hlt
          rwa [getD_of_lt items v _ hlt] at this
        by_cases heqv : equal items[pos + search less items v pos] v = true
        · rw [if_pos heqv]
          have hnew : (items.set (pos + search less items v pos) v).Pairwise
              (fun a b => less b a = false) := by
            refine pairwise_set_of hs ?_ ?_
            · intro k hk hkn
              exact hswo.asymm (hadv k hk hkn v (List.mem_cons_self v rest))
            · intro k hk hkn
              rw [getD_of_lt items v k hk]
              exact hswo.le_trans hstop (hpg _ k hlt hk (by omega))
          refine ih _ (pos + search less items v pos) replaced hnew hbrest
            (by rw [List.length_set]; omega) ?_
          intro k hk hkp w hw
          rw [List.length_set] at hk
          have hgk : (items.set (pos + search less items v pos) v).getD k w
              = items.getD k w := by
            rw [getD_of_lt _ w k (by rw [List.length_set]; omega),
              getD_of_lt items w k hk, List.getElem_set, if_neg (by omega)]
          rw [hgk]
          exact hadv k hk (by omega) w (List.mem_cons_of_mem v hw)
        · rw [if_neg heqv, if_neg (by rw [hstop]; exact Bool.false_ne_true)]
          have hnew : (items.insertIdx (pos + search less items v pos) v).Pairwise
              (fun a b => less b a = false) := by
            refine pairwise_insertIdx_of (by omega) hs ?_ ?_
            · intro k hk hkn
              exact hswo.asymm (hadv k hk hkn v (List.mem_cons_self v rest))
            · intro k hk hkn
              rw [getD_of_lt items v k hk]
              by_cases hkeq : k = pos + search less items v pos
              · subst hkeq; exact hstop
              · exact hswo.le_trans hstop (hpg _ k hlt hk (by omega))
          have hlen : (items.insertIdx (pos + search less items v pos) v).length
              = items.length + 1 := List.length_insertIdx _ _ (by omega)
          refine ih _ (pos + search less items v pos - 1) (replaced + 1) hnew
            hbrest (by omega) ?_
          intro k hk hkp w hw
          have hkitems : k < items.length := by omega
          have hgk : (items.insertIdx (pos + search less items v pos) v).getD k w
              = items.getD k w := by
            rw [getD_of_lt _ w k (by omega), getD_of_lt items w k hkitems]
            exact List.getElem_insertIdx_of_lt items v _ k (by omega) hkitems
          rw [hgk]
          exact hadv k hkitems (by omega) w (List.mem_cons_of_mem v hw)
      · rw [dif_neg hlt]
        have hpose : pos + search less items v pos = items.length := by omega
        have hnew : (items.insertIdx (pos + search less items v pos) v).Pairwise
            (fun a b => less b a = false) := by
          refine pairwise_insertIdx_of (by omega) hs ?_ ?_
          · intro k hk hkn
            exact hswo.asymm (hadv k hk (by omega) v (List.mem_cons_self v rest))
          · intro k hk hkn
            omega
        have hlen : (items.insertIdx (pos + search less items v pos) v).length
            = items.length + 1 := List.length_insertIdx _ _ (by omega)
        refine ih _ (pos + search less items v pos - 2) (replaced + 1) hnew
          hbrest (by omega) ?_
        intro k hk hkp w hw
        have hkitems : k < items.length := by omega
        have hgk : (items.insertIdx (pos + search less items v pos) v).getD k w
            = items.getD k w := by
          rw [getD_of_lt _ w k (by omega), getD_of_lt items w k hkitems]
          exact List.getElem_insertIdx_of_lt items v _ k (by omega) hkitems
        rw [hgk]
        exact hadv k hkitems (by omega) w (List.mem_cons_of_mem v hw)

/-- Every public mutating call preserves weak sortedness, for an arbitrary
`equal` predicate over a strict weak order `less`. -/
theorem applyOp_weak (hswo : IsSWO less) (items : List α) (op : SetOp α)
    (hs : items.Pairwise (fun a b => less b a = false)) :
    (applyOp less equal items op).Pairwise (fun a b => less b a = false) := by
  cases op with
  | insert1 v => exact insertOne_weak hswo items v hs
  | insertN b =>
    show (insertSlice less equal items b false).1.Pairwise _
    unfold insertSlice
    rw [if_neg (by simp)]
    exact insertSliceLoop_weak hswo _ items 0 0 hs
      (by rw [if_neg (by simp)]; exact setSort_pairwise hswo b)
      (by omega) (by omega)
  | replace1 v => exact replaceOne_weak hswo items v hs
  | replaceN b =>
    show (replaceSlice less equal items b false).1.Pairwise _
    unfold replaceSlice
    rw [if_neg (by simp)]
    exact replaceSliceLoop_weak hswo _ items 0 0 hs
      (by rw [if_neg (by simp)]; exact setSort_pairwise hswo b)
      (by omega) (by omega)
  | erase1 v => exact eraseOne_pairwise items v hs
  | eraseN b =>
    show (eraseSlice less equal items b false).1.Pairwise _
    unfold eraseSlice
    by_cases h0 : items.length = 0
    · rw [if_pos h0]; exact hs
    · rw [if_neg h0]
      exact eraseSliceLoop_pairwise _ items 0 0 hs

/-- A constructor-built set is weakly sorted, for an arbitrary `equal`. -/
theorem newSetItems_weak (hswo : IsSWO less) (init : List α) :
    (newSetItems less equal init).Pairwise (fun a b => less b a = false) := by
  unfold newSetItems insertSlice
  rw [if_neg (by simp)]
  exact insertSliceLoop_weak hswo _ [] 0 0 (by simp)
    (by rw [if_neg (by simp)]; exact setSort_pairwise hswo init)
    (by simp) (by omega)

/-- Any sequence of public mutating calls keeps the items weakly sorted,
for an arbitrary `equal` predicate over a strict weak order. -/
theorem foldOps_weak (hswo : IsSWO less) (init : List α)
    (ops : List (SetOp α)) :
    (ops.foldl (applyOp less equal) (newSetItems less equal init)).Pairwise
      (fun a b => less b a = false) := by
  suffices h : ∀ (s : List α), s.Pairwise (fun a b => less b a = false) →
      (ops.foldl (applyOp less equal) s).Pairwise
        (fun a b => less b a = false) by
    exact h _ (newSetItems_weak hswo init)
  induction ops with
  | nil => intro s hs; exact hs
  | cons op rest ih =>
    intro s hs
    exact ih _ (applyOp_weak hswo s op hs)

end Invariant

end Gosc


namespace Gosc

section Instances

/-- The integer ordering bound by the typed constructor `set.Ints`:
`func(s1, s2 interface{}) bool { return s1.(int) < s2.(int) }`. -/
def natLess : Nat → Nat → Bool := fun a b => decide (a < b)

/-- Structural equality on integers: the effect of the default `equal`
(`reflect.DeepEqual`) on `int` elements. -/
def natEqual : Nat → Nat → Bool := fun a b => decide (a = b)

/-- An equality predicate that holds everywhere — a legitimate equivalence
relation, but not order-equivalence under `natLess`. -/
def allEqual : Nat → Nat → Bool := fun _ _ => true

/-- Ordering on pairs by first component only, as in the repository's
`TestReplace` (`less` compares the `ID` field): a strict weak order with
non-trivial ties. -/
def fstLess : Nat × Nat → Nat × Nat → Bool := fun a b => decide (a.1 < b.1)

/-- Equality on pairs by first component (`equal` compares `ID`). -/
def fstEqual : Nat × Nat → Nat × Nat → Bool := fun a b => decide (a.1 = b.1)

/-- Structural equality on pairs (`reflect.DeepEqual`). -/
def pairEqual : Nat × Nat → Nat × Nat → Bool := fun a b => decide (a = b)

theorem natLess_swo : IsSWO natLess := by
  refine ⟨fun a => by simp [natLess], fun a b c h1 h2 => ?_,
    fun a b c h1 h2 h3 h4 => ?_⟩
  · simp only [natLess, decide_eq_true_eq] at h1 h2 ⊢
    omega
  · simp only [natLess, decide_eq_false_iff_not] at h1 h2 h3 h4 ⊢
    omega

theorem fstLess_swo : IsSWO fstLess := by
  refine ⟨fun a => by simp [fstLess], fun a b c h1 h2 => ?_,
    fun a b c h1 h2 h3 h4 => ?_⟩
  · simp only [fstLess, decide_eq_true_eq] at h1 h2 ⊢
    omega
  · simp only [fstLess, decide_eq_false_iff_not] at h1 h2 h3 h4 ⊢
    omega

theorem natEqual_compat : ∀ a b : Nat,
    natEqual a b = true ↔ (natLess a b = false ∧ natLess b a = false) := by
  intro a b
  simp only [natEqual, natLess, decide_eq_true_eq, decide_eq_false_iff_not]
  omega

end Instances

end Gosc

namespace Gosc

section ClaimC1

/-- C1 (counterexample): over the strict weak order `natLess` and the
equality predicate `allEqual` — an equivalence relation, so a legitimate
`equal` argument of the public constructors — the set built by
`New([1], less, equal)` followed by the single public call `Insert(2)` has
items `[1, 2]`: positions 0 and 1 are distinct but their elements satisfy
`equal`, refuting the claimed freedom from `equal`-duplicate pairs. -/
theorem c1_counterexample :
    IsSWO natLess ∧
    ([SetOp.insert1 2] : List (SetOp Nat)).foldl (applyOp natLess allEqual)
        (newSetItems natLess allEqual [1]) = [1, 2] ∧
    (0 : Nat) ≠ 1 ∧
    allEqual (([1, 2] : List Nat).getD 0 0) (([1, 2] : List Nat).getD 1 0)
      = true :=
  ⟨natLess_swo, by decide, by decide, by decide⟩

/-- C1 (amended): for every strict weak order `less`, every initial slice
and every finite sequence of public `Insert`/`Replace`/`Erase` calls
(single-element or slice-typed), the resulting items of a set built by
`New` are sorted ascending — `!less(items[i+1], items[i])` for every
adjacent pair — for EVERY equality predicate `equal`; and under the
additional hypothesis that `equal` coincides with order-equivalence under
`less` (`equal a b ↔ ¬less a b ∧ ¬less b a`) the items also contain no two
distinct positions with `equal` elements. -/
theorem c1_invariant {α : Type} (less equal : α → α → Bool)
    (hswo : IsSWO less) (init : List α) (ops : List (SetOp α)) (s : List α)
    (hs : s = ops.foldl (applyOp less equal) (newSetItems less equal init)) :
    (∀ (i : Nat) (d : α), i + 1 < s.length →
      less (s.getD (i + 1) d) (s.getD i d) = false) ∧
    ((∀ a b : α, equal a b = true ↔ (less a b = false ∧ less b a = false)) →
      ∀ (i j : Nat) (d : α), i < s.length → j < s.length → i ≠ j →
        equal (s.getD i d) (s.getD j d) = false) := by
  subst hs
  constructor
  · intro i d hi
    have hw := @foldOps_weak α less equal hswo init ops
    have hpg := List.pairwise_iff_getElem.1 hw
    rw [getD_of_lt _ d _ hi, getD_of_lt _ d _ (by omega)]
    exact hpg i (i + 1) (by omega) hi (by omega)
  · intro heq i j d hi hj hij
    have hst := @foldOps_pairwise α less equal hswo heq init ops
    have hpg := List.pairwise_iff_getElem.1 hst
    rw [getD_of_lt _ d _ hi, getD_of_lt _ d _ hj]
    set s := ops.foldl (applyOp less equal) (newSetItems less equal init)
    cases heqv : equal s[i] s[j]
    · rfl
    · rcases (heq s[i] s[j]).1 heqv with ⟨h1, h2⟩
      by_cases hlt : i < j
      · rw [hpg i j hi hj hlt] at h1
        cases h1
      · rw [hpg j i hj hi (by omega)] at h2
        cases h2

/-- C1 (witness): the amended invariant evaluated on the `Ints`-style set
built from `[3, 1, 2]` after `Insert([5, 4])`, `Erase(1)`, `Replace(2)`,
whose items are `[2, 3, 4, 5]`. -/
theorem c1_witness :
    natLess (([2, 3, 4, 5] : List Nat).getD 1 0)
        (([2, 3, 4, 5] : List Nat).getD 0 0) = false ∧
    natEqual (([2, 3, 4, 5] : List Nat).getD 0 0)
        (([2, 3, 4, 5] : List Nat).getD 1 0) = false :=
  ⟨(c1_invariant natLess natEqual natLess_swo [3, 1, 2]
      [SetOp.insertN [5, 4], SetOp.erase1 1, SetOp.replace1 2] [2, 3, 4, 5]
      (by decide)).1 0 0 (by decide),
   (c1_invariant natLess natEqual natLess_swo [3, 1, 2]
      [SetOp.insertN [5, 4], SetOp.erase1 1, SetOp.replace1 2] [2, 3, 4, 5]
      (by decide)).2 natEqual_compat 0 1 0 (by decide) (by decide)
      (by decide)⟩

end ClaimC1

end Gosc

namespace Gosc

section ClaimC2

/-- C2 (the code at the failing input): `ReplaceOne` on a present key —
pairs ordered and keyed by their first component, replacing key 2 — does
overwrite the stored element in place and keeps the length, but returns 0:
the Go overwrite branch (`p.rv.Index(pos).Set(...); return`) exits without
ever incrementing the named result `replaced`.  On an absent key it
inserts and returns 1. -/
theorem c2_replace_count :
    replaceOne fstLess fstEqual [(1, 1), (2, 2), (3, 3)] (2, 5)
      = ([(1, 1), (2, 5), (3, 3)], 0) ∧
    replaceOne fstLess fstEqual [(1, 1), (2, 2), (3, 3)] (4, 5)
      = ([(1, 1), (2, 2), (3, 3), (4, 5)], 1) := by
  constructor <;> decide

end ClaimC2

section ClaimC3

/-- C3 (the code at the failing input): `safeSet.Intersection` evaluates
the unwrapped `Intersection` — which builds and returns a fresh set,
leaving the receiver untouched — and discards its result, so the wrapper's
inner items after the call are still `[1, 2]` and not the intersection
value `[2]` the claim requires them to become. -/
theorem c3_safeset_intersection_discards :
    safeSetIntersection natLess natEqual [1, 2] [2, 3] = ([1, 2], [2]) ∧
    ([1, 2] : List Nat) ≠ [2] := by
  constructor <;> decide

end ClaimC3

section ClaimC4

/-- C4 (counterexample): on the sorted items `[0, 1, 2]` with probe 2 and
`fromPos = 1`, `Search` returns 1 — the offset from `fromPos` — while the
smallest index `i ≥ 1` with `!less(items[i], v)` is 2: the element at the
returned value, `items[1] = 1`, is still less than the probe, so the
return value is not the claimed absolute index. -/
theorem c4_counterexample :
    search natLess [0, 1, 2] 2 1 = 1 ∧ (1 : Nat) ≠ 2 ∧
    natLess (([0, 1, 2] : List Nat).getD 1 0) 2 = true ∧
    natLess (([0, 1, 2] : List Nat).getD 2 0) 2 = false := by
  refine ⟨by decide, by decide, by decide, by decide⟩

/-- C4 (amended): for items sorted under a strict weak order and
`fromPos ≤ len`, `Search(v, fromPos)` returns the offset of the lower
bound from `fromPos`: `fromPos + Search(v, fromPos)` is the smallest index
`i` in `[fromPos, len]` with `i = len` or `!less(items[i], v)` — every
index in `[fromPos, fromPos + result)` holds an element less than `v`, and
the element at `fromPos + result`, if it exists, is not less than `v`. -/
theorem c4_search_lower_bound {α : Type} (less : α → α → Bool)
    (hswo : IsSWO less) (items : List α) (v : α) (fromPos : Nat)
    (hsorted : ∀ (i : Nat) (d : α), i + 1 < items.length →
      less (items.getD (i + 1) d) (items.getD i d) = false)
    (hpos : fromPos ≤ items.length) :
    fromPos + search less items v fromPos ≤ items.length ∧
    (∀ k : Nat, fromPos ≤ k → k < fromPos + search less items v fromPos →
      less (items.getD k v) v = true) ∧
    (fromPos + search less items v fromPos < items.length →
      less (items.getD (fromPos + search less items v fromPos) v) v
        = false) := by
  have hchain : items.Chain' (fun a b => less b a = false) := by
    rw [List.chain'_iff_get]
    intro i hi
    have h1 := hsorted i (items.get ⟨0, by omega⟩) (by omega)
    rw [getD_of_lt items _ _ (by omega), getD_of_lt items _ _ (by omega)] at h1
    simp only [List.get_eq_getElem]
    exact h1
  have hpair : items.Pairwise (fun a b => less b a = false) := by
    haveI : IsTrans α (fun a b : α => less b a = false) :=
      ⟨fun _ _ _ h1 h2 => hswo.le_trans h1 h2⟩
    exact List.chain'_iff_pairwise.1 hchain
  refine ⟨?_, ?_, ?_⟩
  · have := search_le less items v fromPos
    omega
  · intro k hk1 hk2
    exact search_before_less hswo items v fromPos hpair k hk1 hk2
  · intro h
    exact search_stop_not_less less items v fromPos hpos h

/-- C4 (witness): the amended lower-bound property evaluated on the sorted
items `[0, 1, 2]`, probe 2, `fromPos = 1`. -/
theorem c4_witness :
    1 + search natLess [0, 1, 2] 2 1 ≤ 3 ∧
    natLess (([0, 1, 2] : List Nat).getD 1 2) 2 = true :=
  ⟨(c4_search_lower_bound natLess natLess_swo [0, 1, 2] 2 1
      (by
        intro i d hi
        have h2 : i = 0 ∨ i = 1 := by
          simp only [List.length_cons, List.length_nil] at hi
          omega
        rcases h2 with rfl | rfl <;> rfl)
      (by simp)).1,
   (c4_search_lower_bound natLess natLess_swo [0, 1, 2] 2 1
      (by
        intro i d hi
        have h2 : i = 0 ∨ i = 1 := by
          simp only [List.length_cons, List.length_nil] at hi
          omega
        rcases h2 with rfl | rfl <;> rfl)
      (by simp)).2.1 1 (by omega) (by decide)⟩

end ClaimC4

section ClaimC7

/-- C7 (the code at the failing input): on the set `[1, 2, 3]`, a
single-element `Has(2, 4)` with `fromPos = 4 > len` makes `Search` return
0 (the Go loop body never runs on a negative range), after which `hasOne`
evaluates `p.rv.Index(4)` — out of range, a reflect panic (`none`); and
the slice-typed `Has([5], 4)` at the same out-of-range position returns
`true` even though 5 is absent, instead of the claimed deterministic
"not found". -/
theorem c7_has_out_of_range :
    search natLess [1, 2, 3] 2 4 = 0 ∧
    hasOne natLess natEqual [1, 2, 3] 2 4 = none ∧
    hasSlice natLess natEqual [1, 2, 3] [5] 4 = true := by
  refine ⟨by decide, by decide, by decide⟩

end ClaimC7

section ClaimC9

/-- C9: when the element found at the lower-bound position is `equal` to
`v`, `InsertOne` (the target of the `Insert` dispatch for a single
element) returns the items unchanged — same length, same elements, no
overwrite — with an added count of 0. -/
theorem c9_insert_present {α : Type} (less equal : α → α → Bool)
    (items : List α) (v : α)
    (hfound : search less items v 0 < items.length)
    (heqv : equal (items.getD (search less items v 0) v) v = true) :
    insertOne less equal items v = (items, 0) := by
  unfold insertOne
  rw [if_neg (by omega), dif_pos hfound,
    if_pos (by rwa [getD_of_lt items v _ hfound] at heqv)]

/-- C9 (witness): inserting the already-present 2 into `[1, 2, 3]`. -/
theorem c9_witness : insertOne natLess natEqual [1, 2, 3] 2 = ([1, 2, 3], 0) :=
  c9_insert_present natLess natEqual [1, 2, 3] 2 (by decide) (by decide)

end ClaimC9

end Gosc

namespace Gosc

section ClaimC6

/-- C6 (counterexample): on the set `[1, 2, 3]` with `fromPos = 3 = len`,
the batch query `Has([5], 3)` returns TRUE although no container element
equals 5: the loop guard `pos < p.rv.Len()` fails on entry and the
function falls through to `return true` without examining the query,
contradicting the claim that an unlocatable queried element forces a
false result. -/
theorem c6_counterexample :
    hasSlice natLess natEqual [1, 2, 3] [5] 3 = true ∧
    ([1, 2, 3] : List Nat).all (fun x => !natEqual x 5) = true := by
  constructor <;> decide

/-- Once the cursor is strictly inside the container, the `hasSlice` walk
fails at the turn of any queried element that no container element
`equal`s: the equality test at the landing position cannot succeed, and a
successful earlier test keeps the cursor strictly inside. -/
theorem hasSliceLoop_absent {α : Type} (less equal : α → α → Bool) :
    ∀ (batch items : List α) (pos : Nat) (v : α), pos < items.length →
      v ∈ batch → (∀ x ∈ items, equal x v = false) →
      hasSliceLoop less equal batch items pos = false := by
  intro batch
  induction batch with
  | nil => intro items pos v _ hv _; cases hv
  | cons e rest ih =>
    intro items pos v hpos hv habs
    simp only [hasSliceLoop]
    rw [if_pos hpos]
    by_cases hlt : pos + search less items e pos < items.length
    · rw [dif_pos hlt]
      by_cases heqv : equal items[pos + search less items e pos] e = true
      · rw [if_pos heqv]
        have hne : v ≠ e := by
          intro h
          have habs2 := habs items[pos + search less items e pos]
            (List.getElem_mem _)
          rw [h] at habs2
          rw [habs2] at heqv
          cases heqv
        exact ih items _ v hlt
          (by rcases List.mem_cons.1 hv with h | h
              · exact absurd h hne
              · exact h) habs
      · rw [if_neg heqv]
    · rw [dif_neg hlt]

/-- When the walk starts strictly inside the container and returns true,
every queried element was matched by `equal` against some container
element. -/
theorem hasSliceLoop_found {α : Type} (less equal : α → α → Bool) :
    ∀ (batch items : List α) (pos : Nat), pos < items.length →
      hasSliceLoop less equal batch items pos = true →
      ∀ v ∈ batch, ∃ x ∈ items, equal x v = true := by
  intro batch
  induction batch with
  | nil => intro items pos _ _ v hv; cases hv
  | cons e rest ih =>
    intro items pos hpos htrue v hv
    simp only [hasSliceLoop] at htrue
    rw [if_pos hpos] at htrue
    by_cases hlt : pos + search less items e pos < items.length
    · rw [dif_pos hlt] at htrue
      by_cases heqv : equal items[pos + search less items e pos] e = true
      · rw [if_pos heqv] at htrue
        rcases List.mem_cons.1 hv with h | hv2
        · refine ⟨items[pos + search less items e pos],
            List.getElem_mem _, ?_⟩
          rw [h]
          exact heqv
        · exact ih items _ hlt htrue v hv2
      · rw [if_neg heqv] at htrue
        cases htrue
    · rw [dif_neg hlt] at htrue
      cases htrue

/-- C6 (amended): the slice-typed `Has(query, fromPos)` returns false when
the query is longer than the container; and PROVIDED `fromPos` is strictly
inside the container, it returns false whenever some queried element has
no `equal` element anywhere in the container, and returns true only if
every queried element has one.  (At `fromPos ≥ len` with a non-empty
container and a query no longer than the container, the loop guard fails
immediately and the call returns true without examining the query — the
exception the original claim misses.) -/
theorem c6_has_batch {α : Type} (less equal : α → α → Bool)
    (items q : List α) (fromPos : Nat) :
    (items.length < q.length →
      hasSlice less equal items q fromPos = false) ∧
    (fromPos < items.length →
      ∀ v ∈ q, (∀ x ∈ items, equal x v = false) →
        hasSlice less equal items q fromPos = false) ∧
    (fromPos < items.length →
      hasSlice less equal items q fromPos = true →
      ∀ v ∈ q, ∃ x ∈ items, equal x v = true) := by
  have hlen : (setSort less q).length = q.length :=
    (setSort_perm q).length_eq
  refine ⟨?_, ?_, ?_⟩
  · intro hq
    unfold hasSlice
    rw [if_pos (by omega)]
  · intro hpos v hv habs
    unfold hasSlice
    by_cases h1 : items.length < (setSort less q).length
    · rw [if_pos h1]
    · rw [if_neg h1, if_neg (by omega)]
      exact hasSliceLoop_absent less equal (setSort less q) items fromPos v
        hpos ((setSort_perm q).mem_iff.2 hv) habs
  · intro hpos htrue v hv
    unfold hasSlice at htrue
    by_cases h1 : items.length < (setSort less q).length
    · rw [if_pos h1] at htrue
      cases htrue
    · rw [if_neg h1, if_neg (by omega)] at htrue
      exact hasSliceLoop_found less equal (setSort less q) items fromPos
        hpos htrue v ((setSort_perm q).mem_iff.2 hv)

/-- C6 (witness): the amended batch-membership contract evaluated on
`[1, 2, 3]`: a longer query fails, an absent element fails from
`fromPos = 0`, and a successful `Has([1, 3], 0)` implies every queried
element is matched. -/
theorem c6_witness :
    hasSlice natLess natEqual [1, 2] [5, 6, 7] 0 = false ∧
    hasSlice natLess natEqual [1, 2, 3] [5] 0 = false ∧
    (∀ v ∈ ([1, 3] : List Nat), ∃ x ∈ ([1, 2, 3] : List Nat),
      natEqual x v = true) :=
  ⟨(c6_has_batch natLess natEqual [1, 2] [5, 6, 7] 0).1 (by decide),
   (c6_has_batch natLess natEqual [1, 2, 3] [5] 0).2.1 (by decide) 5
     (by decide) (by decide),
   (c6_has_batch natLess natEqual [1, 2, 3] [1, 3] 0).2.2 (by decide)
     (by decide)⟩

end ClaimC6

section ClaimC8

/-- Everything the intersection walk appends is read off the receiver's
items at the cursor, so the output only contains receiver-side elements. -/
theorem intersectionLoop_subset {α : Type} (less equal : α → α → Bool) :
    ∀ (other items : List α) (pos : Nat) (dst : List α) (x : α),
      x ∈ intersectionLoop less equal other items pos dst →
      x ∈ dst ∨ x ∈ items := by
  intro other
  induction other with
  | nil => intro items pos dst x hx; exact Or.inl hx
  | cons e rest ih =>
    intro items pos dst x hx
    simp only [intersectionLoop] at hx
    by_cases hg : pos < items.length
    · rw [if_pos hg] at hx
      by_cases hlt : pos + search less items e pos < items.length
      · rw [dif_pos hlt] at hx
        by_cases heqv : equal items[pos + search less items e pos] e = true
        · rw [if_pos heqv] at hx
          rcases ih items _ _ x hx with hd | hi
          · rcases List.mem_append.1 hd with hd | hd
            · exact Or.inl hd
            · rcases List.mem_singleton.1 hd with rfl
              exact Or.inr (List.getElem_mem _)
          · exact Or.inr hi
        · rw [if_neg heqv] at hx
          exact ih items _ _ x hx
      · rw [dif_neg hlt] at hx
        exact ih items _ _ x hx
    · rw [if_neg hg] at hx
      exact Or.inl hx

/-- C8: every element of `self.Intersection(other)` is one of `self`'s own
items (the receiver-side element is appended, never the walked element);
and the sets built by the integer constructor from `[0,1,1,2,2,4,5]` and
`[1,1,2,2,3,5,6]` intersect to exactly the sequence `[1, 2, 5]`. -/
theorem c8_intersection :
    (∀ (α : Type) (less equal : α → α → Bool) (self other : List α) (x : α),
      x ∈ intersection less equal self other → x ∈ self) ∧
    intersection natLess natEqual
      (newSetItems natLess natEqual [0, 1, 1, 2, 2, 4, 5])
      (newSetItems natLess natEqual [1, 1, 2, 2, 3, 5, 6]) = [1, 2, 5] := by
  constructor
  · intro α less equal self other x hx
    rcases intersectionLoop_subset less equal other self 0 [] x hx with h | h
    · cases h
    · exact h
  · decide

/-- C8 (witness): the receiver-side membership fact applied at a concrete
intersection. -/
theorem c8_witness : (1 : Nat) ∈ ([1] : List Nat) :=
  c8_intersection.1 Nat natLess natEqual [1] [1] 1 (by decide)

end ClaimC8

section ClaimC10

/-- C10 (counterexample): `Erase` with a slice argument on an EMPTY
container returns before sorting — `EraseSlice` checks `p.rv.Len() == 0`
first — so the caller's unsorted slice `[2, 1]` is left untouched even
though it is not sorted under `less`; the claim says every slice-typed
batch operation sorts an unsorted argument. -/
theorem c10_counterexample :
    eraseSliceArgAfter natLess ([] : List Nat) [2, 1] = [2, 1] ∧
    goIsSorted natLess [2, 1] = false ∧
    eraseSlice natLess natEqual ([] : List Nat) [2, 1] false = ([], 0) := by
  refine ⟨rfl, by decide, by decide⟩

/-- C10 (amended): slice-typed `Has`, `Insert` and `Replace` always pass
the caller's slice through `set.sort` (sorting it in place), and `Erase`
does so exactly when the container is non-empty; on an argument that is
not already sorted, `set.sort` produces a sorted permutation different
from the argument, so the caller's own slice is observably reordered —
also by the pure query `Has`. -/
theorem c10_arg_sorting {α : Type} (less : α → α → Bool) (hswo : IsSWO less)
    (items s : List α) :
    hasSliceArgAfter less s = setSort less s ∧
    insertSliceArgAfter less s = setSort less s ∧
    (items.length ≠ 0 → eraseSliceArgAfter less items s = setSort less s) ∧
    (goIsSorted less s = false →
      setSort less s ≠ s ∧ List.Perm (setSort less s) s ∧
      goIsSorted less (setSort less s) = true) := by
  refine ⟨rfl, rfl, ?_, ?_⟩
  · intro h
    unfold eraseSliceArgAfter
    rw [if_neg h]
  · intro h
    refine ⟨setSort_ne hswo s h, setSort_perm s, ?_⟩
    exact (goIsSorted_iff_pairwise hswo _).2 (setSort_pairwise hswo s)

/-- C10 (witness): on the non-empty container `[7]`, `EraseSlice` sorts
the unsorted argument `[2, 1]` to `[1, 2] ≠ [2, 1]`. -/
theorem c10_witness :
    eraseSliceArgAfter natLess [7] [2, 1] = setSort natLess [2, 1] ∧
    setSort natLess [2, 1] ≠ [2, 1] ∧
    setSort natLess [2, 1] = [1, 2] :=
  ⟨(c10_arg_sorting natLess natLess_swo [7] [2, 1]).2.2.1 (by decide),
   ((c10_arg_sorting natLess natLess_swo [7] [2, 1]).2.2.2 (by decide)).1,
   by decide⟩

end ClaimC10

end Gosc

namespace Gosc

section ClaimC5

variable {α : Type} {less equal : α → α → Bool}

/-- Calling `InsertOne` once per batch element, left to right, totalling
the added counts: the "each element individually" side of the batch-versus-
single equivalence. -/
def foldInsertOne (less equal : α → α → Bool) :
    List α → List α → List α × Nat
  | items, [] => (items, 0)
  | items, v :: rest =>
    ((foldInsertOne less equal (insertOne less equal items v).1 rest).1,
      (insertOne less equal items v).2 +
        (foldInsertOne less equal (insertOne less equal items v).1 rest).2)

/-- Calling `EraseOne` once per batch element, left to right, totalling
the deleted counts. -/
def foldEraseOne (less equal : α → α → Bool) :
    List α → List α → List α × Nat
  | items, [] => (items, 0)
  | items, v :: rest =>
    ((foldEraseOne less equal (eraseOne less equal items v).1 rest).1,
      (eraseOne less equal items v).2 +
        (foldEraseOne less equal (eraseOne less equal items v).1 rest).2)

/-- Under a strict total order with structural `equal`, the `equal`
predicate coincides with order-equivalence. -/
theorem linear_compat (hswo : IsSWO less)
    (htot : ∀ a b : α, a = b ∨ less a b = true ∨ less b a = true)
    (heq : ∀ a b : α, equal a b = true ↔ a = b) :
    ∀ a b : α, equal a b = true ↔ (less a b = false ∧ less b a = false) := by
  intro a b
  rw [heq]
  constructor
  · rintro rfl
    exact ⟨hswo.irrefl a, hswo.irrefl a⟩
  · rintro ⟨h1, h2⟩
    rcases htot a b with h | h | h
    · exact h
    · rw [h1] at h; cases h
    · rw [h2] at h; cases h

/-- A strictly ascending list has no duplicates. -/
theorem strict_nodup (hswo : IsSWO less) {l : List α}
    (hs : l.Pairwise (fun a b => less a b = true)) : l.Nodup := by
  refine hs.imp ?_
  intro a b h1 hcon
  rw [hcon, hswo.irrefl b] at h1
  cases h1

/-- In a strictly ascending list, membership of `v` holds exactly when the
lower-bound search from 0 lands strictly inside the list on `v` itself. -/
theorem mem_strict_iff_search (hswo : IsSWO less) {items : List α}
    (hs : items.Pairwise (fun a b => less a b = true)) (v : α) :
    v ∈ items ↔ (search less items v 0 < items.length ∧
      items.getD (search less items v 0) v = v) := by
  constructor
  · intro hv
    obtain ⟨k, hk, hkv⟩ := List.mem_iff_getElem.1 hv
    have hpg := List.pairwise_iff_getElem.1 hs
    have h0 := search_le less items v 0
    have hsearch : search less items v 0 = k := by
      refine @lowerBound_unique α less items v (search less items v 0) k
        ?_ ?_ (by omega) ?_ ?_ (by omega)
      · intro m hm
        exact search_before_less hswo items v 0 (strict_weak hswo hs) m
          (by omega) (by omega)
      · intro h
        have hstop := search_stop_not_less less items v 0 (by omega) (by omega)
        rwa [Nat.zero_add] at hstop
      · intro m hm
        rw [getD_of_lt items v m (by omega), ← hkv]
        exact hpg m k (by omega) hk hm
      · intro h
        rw [getD_of_lt items v k hk, hkv]
        exact hswo.irrefl v
    rw [hsearch]
    refine ⟨hk, ?_⟩
    rw [getD_of_lt items v k hk]
    exact hkv
  · rintro ⟨h1, h2⟩
    rw [← h2, getD_of_lt items v _ h1]
    exact List.getElem_mem _

/-- Removing position `P` from a duplicate-free list removes exactly the
element stored there. -/
theorem mem_eraseIdx_nodup {l : List α} {P : Nat} (hP : P < l.length)
    (hnd : l.Nodup) (x : α) :
    x ∈ l.eraseIdx P ↔ (x ∈ l ∧ x ≠ l[P]) := by
  have hnd2 : l.Pairwise (fun a b => a ≠ b) := hnd
  have hpg := List.pairwise_iff_getElem.1 hnd2
  rw [List.eraseIdx_eq_take_drop_succ, List.mem_append]
  constructor
  · rintro (h | h)
    · obtain ⟨n, hn⟩ := List.mem_iff_getElem?.1 h
      rw [List.getElem?_take] at hn
      by_cases hnP : n < P
      · rw [if_pos hnP] at hn
        obtain ⟨hlt2, hx⟩ := List.getElem?_eq_some.1 hn
        constructor
        · rw [← hx]; exact List.getElem_mem _
        · rw [← hx]
          exact hpg n P hlt2 hP (by omega)
      · rw [if_neg hnP] at hn
        cases hn
    · obtain ⟨n, hn⟩ := List.mem_iff_getElem?.1 h
      rw [List.getElem?_drop] at hn
      obtain ⟨hlt2, hx⟩ := List.getElem?_eq_some.1 hn
      constructor
      · rw [← hx]; exact List.getElem_mem _
      · rw [← hx]
        intro hcon
        exact hpg P (P + 1 + n) hP hlt2 (by omega) hcon.symm
  · rintro ⟨hx, hne⟩
    obtain ⟨k, hk, hkx⟩ := List.mem_iff_getElem.1 hx
    by_cases hkP : k < P
    · left
      refine List.mem_iff_getElem?.2 ⟨k, ?_⟩
      rw [List.getElem?_take, if_pos hkP, List.getElem?_eq_getElem hk, hkx]
    · by_cases hkP2 : k = P
      · subst hkP2
        exact absurd hkx.symm hne
      · right
        refine List.mem_iff_getElem?.2 ⟨k - P - 1, ?_⟩
        rw [List.getElem?_drop]
        have hidx : P + 1 + (k - P - 1) = k := by omega
        rw [hidx, List.getElem?_eq_getElem hk, hkx]

/-- Membership and count behaviour of `InsertOne` on a strictly ascending
list: the result's members are the old members plus `v`, and the count is
the length increase. -/
theorem insertOne_char (_hswo : IsSWO less)
    (heq : ∀ a b : α, equal a b = true ↔ a = b)
    (items : List α) (v : α)
    (hs : items.Pairwise (fun a b => less a b = true)) :
    (∀ x, x ∈ (insertOne less equal items v).1 ↔ (x ∈ items ∨ x = v)) ∧
    items.length ≤ (insertOne less equal items v).1.length ∧
    (insertOne less equal items v).2
      = (insertOne less equal items v).1.length - items.length := by
  unfold insertOne
  by_cases h0 : items.length = 0
  · rw [if_pos h0]
    obtain rfl := List.length_eq_zero.1 h0
    refine ⟨fun x => ?_, by simp, by simp⟩
    simp
  · rw [if_neg h0]
    have hle := search_le less items v 0
    by_cases hlt : search less items v 0 < items.length
    · rw [dif_pos hlt]
      by_cases heqv : equal items[search less items v 0] v = true
      · rw [if_pos heqv]
        have hveq : items[search less items v 0] = v := (heq _ _).1 heqv
        refine ⟨fun x => ?_, Nat.le_refl _, by simp⟩
        constructor
        · exact fun h => Or.inl h
        · rintro (h | rfl)
          · exact h
          · rw [← hveq]; exact List.getElem_mem _
      · have hstop : less items[search less items v 0] v = false := by
          have h2 := search_stop_not_less less items v 0 (by omega) (by omega)
          rwa [Nat.zero_add, getD_of_lt items v _ hlt] at h2
        rw [if_neg heqv, if_neg (by rw [hstop]; exact Bool.false_ne_true)]
        have hlen : (items.insertIdx (search less items v 0) v).length
            = items.length + 1 := List.length_insertIdx _ _ (by omega)
        refine ⟨fun x => ?_, by dsimp only; omega, by dsimp only; omega⟩
        rw [List.mem_insertIdx (by omega)]
        tauto
    · rw [dif_neg hlt]
      have hlen : (items.insertIdx (search less items v 0) v).length
          = items.length + 1 := List.length_insertIdx _ _ (by omega)
      refine ⟨fun x => ?_, by dsimp only; omega, by dsimp only; omega⟩
      rw [List.mem_insertIdx (by omega)]
      tauto

/-- Membership and count behaviour of `EraseOne` on a strictly ascending
list: the result's members are the old members without `v`, and the count
is the length decrease. -/
theorem eraseOne_char (hswo : IsSWO less)
    (heq : ∀ a b : α, equal a b = true ↔ a = b)
    (items : List α) (v : α)
    (hs : items.Pairwise (fun a b => less a b = true)) :
    (∀ x, x ∈ (eraseOne less equal items v).1 ↔ (x ∈ items ∧ x ≠ v)) ∧
    (eraseOne less equal items v).1.length ≤ items.length ∧
    (eraseOne less equal items v).2
      = items.length - (eraseOne less equal items v).1.length := by
  unfold eraseOne
  by_cases h0 : items.length = 0
  · rw [if_pos h0]
    obtain rfl := List.length_eq_zero.1 h0
    refine ⟨fun x => by simp, Nat.le_refl _, by simp⟩
  · rw [if_neg h0]
    have hle := search_le less items v 0
    by_cases hlt : search less items v 0 < items.length
    · rw [dif_pos hlt]
      by_cases heqv : equal items[search less items v 0] v = true
      · rw [if_pos heqv]
        have hveq : items[search less items v 0] = v := (heq _ _).1 heqv
        have hlen : (items.eraseIdx (search less items v 0)).length
            = items.length - 1 := List.length_eraseIdx_of_lt hlt
        refine ⟨fun x => ?_, by dsimp only; omega, by dsimp only; omega⟩
        rw [mem_eraseIdx_nodup hlt (strict_nodup hswo hs) x, hveq]
      · rw [if_neg heqv]
        have hnv : v ∉ items := by
          intro hv
          obtain ⟨h1, h2⟩ := (mem_strict_iff_search hswo hs v).1 hv
          rw [getD_of_lt items v _ h1] at h2
          rw [(heq _ _).2 h2] at heqv
          exact heqv rfl
        refine ⟨fun x => ?_, Nat.le_refl _, by simp⟩
        constructor
        · intro h
          exact ⟨h, fun hcon => hnv (hcon ▸ h)⟩
        · exact fun h => h.1
    · rw [dif_neg hlt]
      have hnv : v ∉ items := by
        intro hv
        obtain ⟨h1, _⟩ := (mem_strict_iff_search hswo hs v).1 hv
        omega
      refine ⟨fun x => ?_, Nat.le_refl _, by simp⟩
      constructor
      · intro h
        exact ⟨h, fun hcon => hnv (hcon ▸ h)⟩
      · exact fun h => h.1

/-- Two strictly ascending lists with the same members are equal. -/
theorem sorted_unique (hswo : IsSWO less) :
    ∀ (l1 l2 : List α), l1.Pairwise (fun a b => less a b = true) →
      l2.Pairwise (fun a b => less a b = true) →
      (∀ x, x ∈ l1 ↔ x ∈ l2) → l1 = l2 := by
  intro l1
  induction l1 with
  | nil =>
    intro l2 _ _ hm
    cases l2 with
    | nil => rfl
    | cons b t2 => exact absurd ((hm b).2 (List.mem_cons_self b t2)) (by simp)
  | cons a t1 ih =>
    intro l2 h1 h2 hm
    cases l2 with
    | nil => exact absurd ((hm a).1 (List.mem_cons_self a t1)) (by simp)
    | cons b t2 =>
      obtain ⟨h1head, h1tail⟩ := List.pairwise_cons.1 h1
      obtain ⟨h2head, h2tail⟩ := List.pairwise_cons.1 h2
      have hab : a = b := by
        rcases List.mem_cons.1 ((hm a).1 (List.mem_cons_self a t1)) with h | h
        · exact h
        · rcases List.mem_cons.1 ((hm b).2 (List.mem_cons_self b t2)) with h3 | h3
          · exact h3.symm
          · have hba := h2head a h
            have hab2 := h1head b h3
            rw [hswo.asymm hab2] at hba
            cases hba
      subst hab
      have hmt : ∀ x, x ∈ t1 ↔ x ∈ t2 := by
        intro x
        constructor
        · intro hx
          rcases List.mem_cons.1 ((hm x).1 (List.mem_cons_of_mem a hx)) with h | h
          · rw [h] at hx
            exact absurd (h1head a hx)
              (by rw [hswo.irrefl a]; exact Bool.false_ne_true)
          · exact h
        · intro hx
          rcases List.mem_cons.1 ((hm x).2 (List.mem_cons_of_mem a hx)) with h | h
          · rw [h] at hx
            exact absurd (h2head a hx)
              (by rw [hswo.irrefl a]; exact Bool.false_ne_true)
          · exact h
      rw [ih t2 h1tail h2tail hmt]

/-- The sequential `InsertOne` calls keep the list strictly ascending,
make its members the union of the old members and the batch, and return
the total length increase as the count. -/
theorem foldInsertOne_char (hswo : IsSWO less)
    (htot : ∀ a b : α, a = b ∨ less a b = true ∨ less b a = true)
    (heq : ∀ a b : α, equal a b = true ↔ a = b) :
    ∀ (batch items : List α),
      items.Pairwise (fun a b => less a b = true) →
      ((foldInsertOne less equal items batch).1.Pairwise
        (fun a b => less a b = true)) ∧
      (∀ x, x ∈ (foldInsertOne less equal items batch).1 ↔
        (x ∈ items ∨ x ∈ batch)) ∧
      items.length ≤ (foldInsertOne less equal items batch).1.length ∧
      (foldInsertOne less equal items batch).2
        = (foldInsertOne less equal items batch).1.length - items.length := by
  intro batch
  induction batch with
  | nil =>
    intro items hs
    exact ⟨hs, fun x => by simp [foldInsertOne],
      by simp [foldInsertOne], by simp [foldInsertOne]⟩
  | cons v rest ih =>
    intro items hs
    have hstep := insertOne_char hswo heq items v hs
    have hs2 := insertOne_pairwise hswo (linear_compat hswo htot heq) items v hs
    obtain ⟨ihp, ihm, ihlen, ihcount⟩ :=
      ih (insertOne less equal items v).1 hs2
    simp only [foldInsertOne]
    refine ⟨ihp, ?_, by omega, by omega⟩
    intro x
    rw [ihm x, hstep.1 x, List.mem_cons]
    tauto

/-- The sequential `EraseOne` calls keep the list strictly ascending, make
its members the old members without the batch, and return the total length
decrease as the count. -/
theorem foldEraseOne_char (hswo : IsSWO less)
    (heq : ∀ a b : α, equal a b = true ↔ a = b) :
    ∀ (batch items : List α),
      items.Pairwise (fun a b => less a b = true) →
      ((foldEraseOne less equal items batch).1.Pairwise
        (fun a b => less a b = true)) ∧
      (∀ x, x ∈ (foldEraseOne less equal items batch).1 ↔
        (x ∈ items ∧ x ∉ batch)) ∧
      (foldEraseOne less equal items batch).1.length ≤ items.length ∧
      (foldEraseOne less equal items batch).2
        = items.length - (foldEraseOne less equal items batch).1.length := by
  intro batch
  induction batch with
  | nil =>
    intro items hs
    exact ⟨hs, fun x => by simp [foldEraseOne],
      by simp [foldEraseOne], by simp [foldEraseOne]⟩
  | cons v rest ih =>
    intro items hs
    have hstep := eraseOne_char hswo heq items v hs
    have hs2 := @eraseOne_pairwise α less equal (fun a b => less a b = true) items v hs
    obtain ⟨ihp, ihm, ihlen, ihcount⟩ :=
      ih (eraseOne less equal items v).1 hs2
    simp only [foldEraseOne]
    refine ⟨ihp, ?_, by omega, by omega⟩
    intro x
    rw [ihm x, hstep.1 x, List.mem_cons]
    tauto

/-- Permutation invariance of the sequential `InsertOne` calls: the final
items and the total count do not depend on the order of the batch. -/
theorem foldInsertOne_perm (hswo : IsSWO less)
    (htot : ∀ a b : α, a = b ∨ less a b = true ∨ less b a = true)
    (heq : ∀ a b : α, equal a b = true ↔ a = b)
    (items : List α) (hitems : items.Pairwise (fun a b => less a b = true))
    (b1 b2 : List α) (hperm : List.Perm b1 b2) :
    foldInsertOne less equal items b1 = foldInsertOne less equal items b2 := by
  obtain ⟨p1, m1, len1, c1⟩ := foldInsertOne_char hswo htot heq b1 items hitems
  obtain ⟨p2, m2, len2, c2⟩ := foldInsertOne_char hswo htot heq b2 items hitems
  have hfst : (foldInsertOne less equal items b1).1
      = (foldInsertOne less equal items b2).1 := by
    refine sorted_unique hswo _ _ p1 p2 ?_
    intro x
    rw [m1 x, m2 x]
    exact or_congr Iff.rfl hperm.mem_iff
  have hsnd : (foldInsertOne less equal items b1).2
      = (foldInsertOne less equal items b2).2 := by
    rw [c1, c2, hfst]
  exact Prod.ext hfst hsnd

/-- Permutation invariance of the sequential `EraseOne` calls. -/
theorem foldEraseOne_perm (hswo : IsSWO less)
    (heq : ∀ a b : α, equal a b = true ↔ a = b)
    (items : List α) (hitems : items.Pairwise (fun a b => less a b = true))
    (b1 b2 : List α) (hperm : List.Perm b1 b2) :
    foldEraseOne less equal items b1 = foldEraseOne less equal items b2 := by
  obtain ⟨p1, m1, len1, c1⟩ := foldEraseOne_char hswo heq b1 items hitems
  obtain ⟨p2, m2, len2, c2⟩ := foldEraseOne_char hswo heq b2 items hitems
  have hfst : (foldEraseOne less equal items b1).1
      = (foldEraseOne less equal items b2).1 := by
    refine sorted_unique hswo _ _ p1 p2 ?_
    intro x
    rw [m1 x, m2 x]
    exact and_congr Iff.rfl (not_congr hperm.mem_iff)
  have hsnd : (foldEraseOne less equal items b1).2
      = (foldEraseOne less equal items b2).2 := by
    rw [c1, c2, hfst]
  exact Prod.ext hfst hsnd

/-- Reading below an erased position is unaffected. -/
theorem getD_eraseIdx_of_lt {l : List α} {P k : Nat} (hP : P < l.length)
    (hk : k < P) (d : α) : (l.eraseIdx P).getD k d = l.getD k d := by
  rw [List.eraseIdx_eq_take_drop_succ, List.getD_eq_getElem?_getD,
    List.getD_eq_getElem?_getD,
    List.getElem?_append_left (by rw [List.length_take]; omega),
    List.getElem?_take, if_pos hk]

/-- When every stored element is less than `v`, `EraseOne` does nothing. -/
theorem eraseOne_noop (hswo : IsSWO less) {items : List α} (v : α)
    (hs : items.Pairwise (fun a b => less a b = true))
    (hall : ∀ k : Nat, k < items.length →
      less (items.getD k v) v = true) :
    eraseOne less equal items v = (items, 0) := by
  unfold eraseOne
  by_cases h0 : items.length = 0
  · rw [if_pos h0]
  · rw [if_neg h0]
    have h1 := search_le less items v 0
    have hsl : search less items v 0 = items.length := by
      refine @lowerBound_unique α less items v (search less items v 0)
        items.length ?_ ?_ (by omega) ?_ ?_ (by omega)
      · intro m hm
        exact search_before_less hswo items v 0 (strict_weak hswo hs) m
          (by omega) (by omega)
      · intro h
        have hstop := search_stop_not_less less items v 0 (by omega) (by omega)
        rwa [Nat.zero_add] at hstop
      · intro m hm
        exact hall m hm
      · intro h
        omega
    rw [dif_neg (by omega)]

/-- When every stored element is less than every batch element, the
sequential `EraseOne` calls do nothing. -/
theorem foldEraseOne_noop (hswo : IsSWO less) :
    ∀ (batch items : List α),
      items.Pairwise (fun a b => less a b = true) →
      (∀ v ∈ batch, ∀ k : Nat, k < items.length →
        less (items.getD k v) v = true) →
      foldEraseOne less equal items batch = (items, 0) := by
  intro batch
  induction batch with
  | nil => intro items _ _; simp [foldEraseOne]
  | cons v rest ih =>
    intro items hs hall
    have h1 : eraseOne less equal items v = (items, 0) :=
      eraseOne_noop hswo v hs (hall v (List.mem_cons_self v rest))
    simp only [foldEraseOne]
    rw [h1]
    rw [ih items hs (fun w hw => hall w (List.mem_cons_of_mem v hw))]
    rfl

/-- The `InsertSlice` merge loop computes exactly the sequential
`InsertOne` calls on the (sorted) batch, with the count offset by the
accumulator — the batch-versus-single equivalence for `Insert`. -/
theorem insertSliceLoop_eq_fold (hswo : IsSWO less)
    (htot : ∀ a b : α, a = b ∨ less a b = true ∨ less b a = true)
    (heq : ∀ a b : α, equal a b = true ↔ a = b) :
    ∀ (batch items : List α) (pos added : Nat),
      items.Pairwise (fun a b => less a b = true) →
      batch.Pairwise (fun a b => less b a = false) →
      pos ≤ items.length →
      (∀ (k : Nat), k < items.length → k < pos →
        ∀ w ∈ batch, less (items.getD k w) w = true) →
      insertSliceLoop less equal batch items pos added
        = ((foldInsertOne less equal items batch).1,
            added + (foldInsertOne less equal items batch).2) := by
  intro batch
  induction batch with
  | nil =>
    intro items pos added _ _ _ _
    simp [insertSliceLoop, foldInsertOne]
  | cons v rest ih =>
    intro items pos added hs hbatch hpos hcur
    have hrest : ∀ r ∈ rest, less r v = false :=
      fun r hr => (List.pairwise_cons.1 hbatch).1 r hr
    have hbrest := (List.pairwise_cons.1 hbatch).2
    have hadv := cursor_advance hswo (strict_weak hswo hs) hrest hcur
    have hcompat := linear_compat hswo htot heq
    simp only [insertSliceLoop, foldInsertOne]
    by_cases h0 : items.length = 0
    · rw [if_pos h0]
      have hio : insertOne less equal items v = (items ++ [v], 1) := by
        unfold insertOne
        rw [if_pos h0]
      have hsnew : (items ++ [v]).Pairwise (fun a b => less a b = true) := by
        obtain rfl := List.length_eq_zero.1 h0
        simp
      rw [ih (items ++ [v]) pos (added + 1) hsnew hbrest
        (by rw [List.length_append]; omega)
        (by intro k hk hkp w hw; omega), hio]
      exact Prod.ext rfl (by dsimp only; omega)
    · rw [if_neg h0]
      have hle := search_le less items v pos
      have hkey : search less items v 0 = pos + search less items v pos :=
        search_from_cursor hswo items v pos hpos (strict_weak hswo hs)
          (fun k hk => hcur k (by omega) hk v (List.mem_cons_self v rest))
      by_cases hlt : pos + search less items v pos < items.length
      · have hlt0 : search less items v 0 < items.length := by
          rw [hkey]; exact hlt
        have hgeq : items.getD (search less items v 0) v
            = items.getD (pos + search less items v pos) v := by rw [hkey]
        rw [dif_pos hlt]
        by_cases heqv : equal items[pos + search less items v pos] v = true
        · rw [if_pos heqv]
          have heqv1 : equal items[search less items v 0] v = true := by
            rw [← getD_of_lt items v _ hlt0, hgeq,
              getD_of_lt items v _ hlt]
            exact heqv
          have hio : insertOne less equal items v = (items, 0) := by
            unfold insertOne
            rw [if_neg h0, dif_pos hlt0, if_pos heqv1]
          rw [ih items (pos + search less items v pos) added hs hbrest
            (by omega)
            (fun k hk hkp w hw => hadv k hk hkp w (List.mem_cons_of_mem v hw)),
            hio]
          exact Prod.ext rfl (by dsimp only; omega)
        · rw [if_neg heqv]
          have hstop : less items[pos + search less items v pos] v = false := by
            have h2 := search_stop_not_less less items v pos hpos hlt
            rwa [getD_of_lt items v _ hlt] at h2
          rw [if_neg (by rw [hstop]; exact Bool.false_ne_true)]
          have heqv1 : ¬(equal items[search less items v 0] v = true) := by
            rw [← getD_of_lt items v _ hlt0, hgeq, getD_of_lt items v _ hlt]
            exact heqv
          have hless1 : ¬(less items[search less items v 0] v = true) := by
            rw [← getD_of_lt items v _ hlt0, hgeq, getD_of_lt items v _ hlt,
              hstop]
            exact Bool.false_ne_true
          have hio : insertOne less equal items v
              = (items.insertIdx (pos + search less items v pos) v, 1) := by
            unfold insertOne
            rw [if_neg h0, dif_pos hlt0, if_neg heqv1, if_neg hless1, hkey]
          have hsnew : (items.insertIdx (pos + search less items v pos)
              v).Pairwise (fun a b => less a b = true) := by
            have hp := insertOne_pairwise hswo hcompat items v hs
            rw [hio] at hp
            exact hp
          have hlen : (items.insertIdx (pos + search less items v pos)
              v).length = items.length + 1 := List.length_insertIdx _ _ (by omega)
          rw [ih _ (pos + search less items v pos - 1) (added + 1) hsnew
            hbrest (by omega)
            (by
              intro k hk hkp w hw
              have hkitems : k < items.length := by omega
              have hgk : (items.insertIdx (pos + search less items v pos)
                  v).getD k w = items.getD k w := by
                rw [getD_of_lt _ w k (by omega), getD_of_lt items w k hkitems]
                exact List.getElem_insertIdx_of_lt items v _ k (by omega)
                  hkitems
              rw [hgk]
              exact hadv k hkitems (by omega) w (List.mem_cons_of_mem v hw)),
            hio]
          exact Prod.ext rfl (by dsimp only; omega)
      · rw [dif_neg hlt]
        have hlt0 : ¬(search less items v 0 < items.length) := by
          rw [hkey]; exact hlt
        have hio : insertOne less equal items v
            = (items.insertIdx (pos + search less items v pos) v, 1) := by
          unfold insertOne
          rw [if_neg h0, dif_neg hlt0, hkey]
        have hsnew : (items.insertIdx (pos + search less items v pos)
            v).Pairwise (fun a b => less a b = true) := by
          have hp := insertOne_pairwise hswo hcompat items v hs
          rw [hio] at hp
          exact hp
        have hlen : (items.insertIdx (pos + search less items v pos)
            v).length = items.length + 1 := List.length_insertIdx _ _ (by omega)
        rw [ih _ (pos + search less items v pos - 2) (added + 1) hsnew
          hbrest (by omega)
          (by
            intro k hk hkp w hw
            have hkitems : k < items.length := by omega
            have hgk : (items.insertIdx (pos + search less items v pos)
                v).getD k w = items.getD k w := by
              rw [getD_of_lt _ w k (by omega), getD_of_lt items w k hkitems]
              exact List.getElem_insertIdx_of_lt items v _ k (by omega)
                hkitems
            rw [hgk]
            exact hadv k hkitems (by omega) w (List.mem_cons_of_mem v hw)),
          hio]
        exact Prod.ext rfl (by dsimp only; omega)

/-- The `EraseSlice` loop computes exactly the sequential `EraseOne` calls
on the (sorted) batch: the early exit when the cursor reaches the end of
the container corresponds to the remaining `EraseOne` calls being no-ops. -/
theorem eraseSliceLoop_eq_fold (hswo : IsSWO less) :
    ∀ (batch items : List α) (pos deled : Nat),
      items.Pairwise (fun a b => less a b = true) →
      batch.Pairwise (fun a b => less b a = false) →
      pos ≤ items.length →
      (∀ (k : Nat), k < items.length → k < pos →
        ∀ w ∈ batch, less (items.getD k w) w = true) →
      eraseSliceLoop less equal batch items pos deled
        = ((foldEraseOne less equal items batch).1,
            deled + (foldEraseOne less equal items batch).2) := by
  intro batch
  induction batch with
  | nil =>
    intro items pos deled _ _ _ _
    simp [eraseSliceLoop, foldEraseOne]
  | cons v rest ih =>
    intro items pos deled hs hbatch hpos hcur
    have hrest : ∀ r ∈ rest, less r v = false :=
      fun r hr => (List.pairwise_cons.1 hbatch).1 r hr
    have hbrest := (List.pairwise_cons.1 hbatch).2
    have hadv := cursor_advance hswo (strict_weak hswo hs) hrest hcur
    simp only [eraseSliceLoop]
    by_cases hg : pos < items.length
    · rw [if_pos hg]
      have hle := search_le less items v pos
      have hkey : search less items v 0 = pos + search less items v pos :=
        search_from_cursor hswo items v pos hpos (strict_weak hswo hs)
          (fun k hk => hcur k (by omega) hk v (List.mem_cons_self v rest))
      have h0 : ¬(items.length = 0) := by omega
      by_cases hlt : pos + search less items v pos < items.length
      · have hlt0 : search less items v 0 < items.length := by
          rw [hkey]; exact hlt
        have hgeq : items.getD (search less items v 0) v
            = items.getD (pos + search less items v pos) v := by rw [hkey]
        rw [dif_pos hlt]
        by_cases heqv : equal items[pos + search less items v pos] v = true
        · rw [if_pos heqv]
          have heqv1 : equal items[search less items v 0] v = true := by
            rw [← getD_of_lt items v _ hlt0, hgeq,
              getD_of_lt items v _ hlt]
            exact heqv
          have hio : eraseOne less equal items v
              = (items.eraseIdx (pos + search less items v pos), 1) := by
            unfold eraseOne
            rw [if_neg h0, dif_pos hlt0, if_pos heqv1, hkey]
          have hsnew : (items.eraseIdx (pos + search less items v
              pos)).Pairwise (fun a b => less a b = true) :=
            List.Pairwise.sublist (List.eraseIdx_sublist items _) hs
          have hlen : (items.eraseIdx (pos + search less items v
              pos)).length = items.length - 1 := List.length_eraseIdx_of_lt hlt
          simp only [foldEraseOne]
          rw [ih _ (pos + search less items v pos) (deled + 1) hsnew
            hbrest (by omega)
            (by
              intro k hk hkp w hw
              have hkitems : k < items.length := by omega
              have hgk : (items.eraseIdx (pos + search less items v
                  pos)).getD k w = items.getD k w :=
                getD_eraseIdx_of_lt hlt hkp w
              rw [hgk]
              exact hadv k hkitems (by omega) w (List.mem_cons_of_mem v hw)),
            hio]
          exact Prod.ext rfl (by dsimp only; omega)
        · rw [if_neg heqv]
          have heqv1 : ¬(equal items[search less items v 0] v = true) := by
            rw [← getD_of_lt items v _ hlt0, hgeq, getD_of_lt items v _ hlt]
            exact heqv
          have hio : eraseOne less equal items v = (items, 0) := by
            unfold eraseOne
            rw [if_neg h0, dif_pos hlt0, if_neg heqv1]
          simp only [foldEraseOne]
          rw [ih items (pos + search less items v pos) deled hs hbrest
            (by omega)
            (fun k hk hkp w hw => hadv k hk hkp w (List.mem_cons_of_mem v hw)),
            hio]
          exact Prod.ext rfl (by dsimp only; omega)
      · rw [dif_neg hlt]
        have hlt0 : ¬(search less items v 0 < items.length) := by
          rw [hkey]; exact hlt
        have hio : eraseOne less equal items v = (items, 0) := by
          unfold eraseOne
          rw [if_neg h0, dif_neg hlt0]
        simp only [foldEraseOne]
        rw [ih items (pos + search less items v pos) deled hs hbrest
          (by omega)
          (fun k hk hkp w hw => hadv k hk hkp w (List.mem_cons_of_mem v hw)),
          hio]
        exact Prod.ext rfl (by dsimp only; omega)
    · rw [if_neg hg]
      have hall : ∀ w ∈ v :: rest, ∀ k : Nat, k < items.length →
          less (items.getD k w) w = true := by
        intro w hw k hk
        exact hcur k hk (by omega) w hw
      rw [foldEraseOne_noop hswo (v :: rest) items hs hall]
      exact Prod.ext rfl (by dsimp only; omega)

end ClaimC5

end Gosc

namespace Gosc

section ClaimC5Theorems

theorem natLess_total : ∀ a b : Nat,
    a = b ∨ natLess a b = true ∨ natLess b a = true := by
  intro a b
  simp only [natLess, decide_eq_true_eq]
  omega

theorem natEqual_eq : ∀ a b : Nat, natEqual a b = true ↔ a = b := by
  intro a b
  simp [natEqual]

/-- C5 (counterexample): over the strict weak order `fstLess` (pairs
ordered by first component) with the default structural equality
(`reflect.DeepEqual`), inserting the batch elements `(0,1)` and `(0,2)`
one at a time into an empty set yields different final sequences for the
two orders of the same two-element batch — the claimed order-independence
fails as soon as `less` has ties. -/
theorem c5_counterexample :
    IsSWO fstLess ∧
    List.Perm [((0, 1) : Nat × Nat), (0, 2)] [((0, 2) : Nat × Nat), (0, 1)] ∧
    foldInsertOne fstLess pairEqual [] [(0, 1), (0, 2)]
      = ([(0, 2), (0, 1)], 2) ∧
    foldInsertOne fstLess pairEqual [] [(0, 2), (0, 1)]
      = ([(0, 1), (0, 2)], 2) ∧
    ([((0, 2) : Nat × Nat), (0, 1)] : List (Nat × Nat)) ≠ [(0, 1), (0, 2)] :=
  ⟨fstLess_swo, by decide, by decide, by decide, by decide⟩

/-- C5 (amended): when `less` is a strict TOTAL order (a strict weak order
whose only ties are equalities) and `equal` is structural equality, a
slice `Insert` on a strictly ascending container produces exactly the
items and total added count of the sequential `InsertOne` calls over the
batch in ANY order, and likewise slice `Erase` matches the sequential
`EraseOne` calls with total deleted count. -/
theorem c5_batch_single {α : Type} (less equal : α → α → Bool)
    (hswo : IsSWO less)
    (htot : ∀ a b : α, a = b ∨ less a b = true ∨ less b a = true)
    (heq : ∀ a b : α, equal a b = true ↔ a = b)
    (items : List α)
    (hitems : items.Pairwise (fun a b => less a b = true))
    (batch batch2 : List α) (hperm : List.Perm batch batch2) :
    insertSlice less equal items batch false
      = foldInsertOne less equal items batch2 ∧
    eraseSlice less equal items batch false
      = foldEraseOne less equal items batch2 := by
  constructor
  · unfold insertSlice
    rw [if_neg (by simp), if_neg (by decide)]
    rw [insertSliceLoop_eq_fold hswo htot heq (setSort less batch) items 0 0
      hitems (setSort_pairwise hswo batch) (by omega) (by omega)]
    rw [Nat.zero_add]
    rw [foldInsertOne_perm hswo htot heq items hitems (setSort less batch)
      batch2 ((setSort_perm batch).trans hperm)]
  · unfold eraseSlice
    by_cases h0 : items.length = 0
    · rw [if_pos h0]
      obtain rfl := List.length_eq_zero.1 h0
      have hnoop := @foldEraseOne_noop α less equal hswo batch2 []
        (by simp) (by intro v _ k hk; simp at hk)
      rw [hnoop]
    · rw [if_neg h0, if_neg (by decide)]
      rw [eraseSliceLoop_eq_fold hswo (setSort less batch) items 0 0
        hitems (setSort_pairwise hswo batch) (by omega) (by omega)]
      rw [Nat.zero_add]
      rw [foldEraseOne_perm hswo heq items hitems (setSort less batch)
        batch2 ((setSort_perm batch).trans hperm)]

/-- C5 (witness): on the integer set `[1, 3]`, the batch `Insert([2,3,4])`
equals the one-at-a-time inserts in the reversed order `[4,3,2]` (items
`[1,2,3,4]`, 2 added), and the batch `Erase([3,5])` equals the
one-at-a-time erases in the reversed order `[5,3]` (items `[1]`, 1
deleted). -/
theorem c5_witness :
    insertSlice natLess natEqual [1, 3] [2, 3, 4] false = ([1, 2, 3, 4], 2) ∧
    foldInsertOne natLess natEqual [1, 3] [4, 3, 2] = ([1, 2, 3, 4], 2) ∧
    eraseSlice natLess natEqual [1, 3] [3, 5] false = ([1], 1) ∧
    foldEraseOne natLess natEqual [1, 3] [5, 3] = ([1], 1) := by
  have h := c5_batch_single natLess natEqual natLess_swo natLess_total
    natEqual_eq [1, 3] (by decide) [2, 3, 4] [4, 3, 2] (by decide)
  have h2 := c5_batch_single natLess natEqual natLess_swo natLess_total
    natEqual_eq [1, 3] (by decide) [3, 5] [5, 3] (by decide)
  refine ⟨?_, by decide, ?_, by decide⟩
  · rw [h.1]; decide
  · rw [h2.2]; decide

end ClaimC5Theorems

end Gosc

namespace Gosc

section TestSuiteChecks

/-!
The following examples replay the repository's own test vectors
(`set_test.go`) against the embedding: the canonical form of the `Ints`
set built from `[2,6,4,5,4,2,3,0,1]`, its membership queries with a
positional argument, batch insert and erase counts, and the intersection
example, all evaluate to the values the Go tests assert.
-/

example : newSetItems natLess natEqual [2, 6, 4, 5, 4, 2, 3, 0, 1]
    = [0, 1, 2, 3, 4, 5, 6] := by decide

example : hasSlice natLess natEqual [0, 1, 2, 3, 4, 5, 6] [0] 0 = true := by
  decide

example : hasSlice natLess natEqual [0, 1, 2, 3, 4, 5, 6] [0] 1 = false := by
  decide

example : hasSlice natLess natEqual [0, 1, 2, 3, 4, 5, 6] [3] 2 = true := by
  decide

example : hasSlice natLess natEqual [0, 1, 2, 3, 4, 5, 6] [10] 0 = false := by
  decide

example : insertSlice natLess natEqual [0, 1, 2, 3, 4, 5, 6] [1, 5, 7, 8] false
    = ([0, 1, 2, 3, 4, 5, 6, 7, 8], 2) := by decide

example : eraseSlice natLess natEqual [0, 1, 2, 3, 4, 5, 6, 7, 8] [7, 9] false
    = ([0, 1, 2, 3, 4, 5, 6, 8], 1) := by decide

example : eraseSlice natLess natEqual [0, 1, 2, 3, 4, 5, 6, 8] [6, 8] false
    = ([0, 1, 2, 3, 4, 5], 2) := by decide

example : eraseSlice natLess natEqual [0, 1, 2, 3, 4, 5] [0, 1] false
    = ([2, 3, 4, 5], 2) := by decide

example : intersection natLess natEqual [2, 3, 4, 5] [1, 2, 4, 6]
    = [2, 4] := by decide

example : insertSlice fstLess fstEqual [] [(1, 1), (2, 2), (3, 3)] false
    = ([(1, 1), (2, 2), (3, 3)], 3) := by decide

example : replaceOne fstLess fstEqual [(1, 1), (2, 2), (3, 3)] (2, 5)
    = (([(1, 1), (2, 5), (3, 3)] : List (Nat × Nat)), 0) := by decide

example : search fstLess [(1, 1), (2, 5), (3, 3)] (2, 0) 0 = 1 := by decide

end TestSuiteChecks

end Gosc
